import Mathlib

/-!
Shallow embedding of the crossword engine (`CrosswordEngine.h`, namespace `cw`):
grid model, pattern dictionary, and the recursive backtracking search.
Strings are modelled as `List Char`; the pattern hash map is modelled by its
bucket function (pattern ↦ list of inserted words in insertion order);
the unbounded recursion of `Engine::Loop` is modelled with an explicit fuel
parameter plus a fuel-stabilisation theorem.
-/

namespace Cwe

/-- `'A' ≤ c ≤ 'Z'`, the letter test used throughout the engine. -/
def isUpperAZ (c : Char) : Prop := 'A' ≤ c ∧ c ≤ 'Z'

instance (c : Char) : Decidable (isUpperAZ c) := by
  unfold isUpperAZ; infer_instance

/-- C `toupper` restricted to ASCII, as used by `Library::ToUpper`. -/
def toUpperChar (c : Char) : Char :=
  if 'a' ≤ c ∧ c ≤ 'z' then Char.ofNat (c.toNat - 32) else c

/-- A string all of whose characters are uppercase letters. -/
def AllLetters (w : List Char) : Prop := ∀ c ∈ w, isUpperAZ c

instance (w : List Char) : Decidable (AllLetters w) := by
  unfold AllLetters; infer_instance

/-- `cw::Point`: (row, col) position. -/
structure Point where
  nRow : Nat
  nCol : Nat
deriving DecidableEq

/-- `cw::Span`: origin, length, orientation. -/
structure Span where
  point : Point
  nLen : Nat
  bVert : Bool
deriving DecidableEq

/-- `Span::GetPoint`: the i-th cell of the span. -/
def Span.GetPoint (s : Span) (i : Nat) : Point :=
  if s.bVert then ⟨s.point.nRow + i, s.point.nCol⟩ else ⟨s.point.nRow, s.point.nCol + i⟩

/-- `cw::Attribute`: classification flags of a span snapshot. -/
structure Attribute where
  bHasLetters : Bool := false
  bHasBlanks : Bool := false
deriving DecidableEq

def Attribute.IsEmpty (a : Attribute) : Bool := a.bHasBlanks && !a.bHasLetters
def Attribute.IsPartial (a : Attribute) : Bool := a.bHasBlanks && a.bHasLetters
def Attribute.IsFull (a : Attribute) : Bool := !a.bHasBlanks && a.bHasLetters

/-- `cw::Slot`: a span paired with its current pattern string. -/
structure Slot where
  span : Span
  sPattern : List Char
deriving DecidableEq

/-- `cw::Grid`: id, cell matrix, derived span list. -/
structure Grid where
  sID : List Char := []
  vecLines : List (List Char) := []
  vecSpans : List Span := []
deriving DecidableEq

def Grid.rows (g : Grid) : Nat := g.vecLines.length

def Grid.cols (g : Grid) : Nat :=
  match g.vecLines with
  | [] => 0
  | l :: _ => l.length

def Grid.MaxSize (g : Grid) : Nat := max g.rows g.cols

/-- The cell at `p`, when it exists (`Grid::GetChar` asserts in-bounds). -/
def Grid.getCell (g : Grid) (p : Point) : Option Char :=
  (g.vecLines[p.nRow]?).bind fun row => row[p.nCol]?

/-- `Grid::GetChar`; out-of-bounds reads (which assert in the source) give `'?'`. -/
def Grid.GetChar (g : Grid) (p : Point) : Char := (g.getCell p).getD '?'

def Grid.IsInBounds (g : Grid) (p : Point) : Prop := p.nRow < g.rows ∧ p.nCol < g.cols

instance (g : Grid) (p : Point) : Decidable (g.IsInBounds p) := by
  unfold Grid.IsInBounds; infer_instance

def Grid.IsBlock (g : Grid) (p : Point) : Prop := g.GetChar p = '#'

instance (g : Grid) (p : Point) : Decidable (g.IsBlock p) := by
  unfold Grid.IsBlock; infer_instance

def Grid.IsBlank (g : Grid) (p : Point) : Prop := g.GetChar p = '.'

instance (g : Grid) (p : Point) : Decidable (g.IsBlank p) := by
  unfold Grid.IsBlank; infer_instance

def Grid.IsLetter (g : Grid) (p : Point) : Prop := isUpperAZ (g.GetChar p)

/-- `Grid::SetChar`: write one cell (no-op out of bounds, where the source asserts). -/
def Grid.SetChar (g : Grid) (p : Point) (c : Char) : Grid :=
  { g with vecLines := g.vecLines.set p.nRow ((g.vecLines.getD p.nRow []).set p.nCol c) }

/-- `Grid::GetString`: the cells along a span, in span order. -/
def Grid.GetString (g : Grid) (span : Span) : List Char :=
  (List.range span.nLen).map fun i => g.GetChar (span.GetPoint i)

/-- The attribute flags `Grid::GetString` records while reading a span:
`bHasBlanks` once a `'.'` is seen, else `bHasLetters` once a letter is seen. -/
def Grid.SpanAttr (g : Grid) (span : Span) : Attribute :=
  { bHasBlanks := (g.GetString span).any fun c => decide (c = '.')
    bHasLetters := (g.GetString span).any fun c => !decide (c = '.') && decide (isUpperAZ c) }

/-- The first `n` writes of `Grid::SetString` (cell `i` receives `str[i]`). -/
def Grid.writeRange (g : Grid) (span : Span) (str : List Char) : Nat → Grid
  | 0 => g
  | n + 1 => ((g.writeRange span str n).SetChar (span.GetPoint n) (str.getD n '?'))

/-- `Grid::SetString`: write `str` along the span (the source asserts
`span.nLen = str.length`; every call site satisfies it). -/
def Grid.SetString (g : Grid) (span : Span) (str : List Char) : Grid :=
  g.writeRange span str span.nLen

/-- Number of blank (`'.'`) cells in the grid; the measure of search progress. -/
def Grid.countBlanks (g : Grid) : Nat :=
  (g.vecLines.map fun row => row.countP fun c => decide (c = '.')).sum

-- ===== Library (pattern dictionary) =====

/-- `Library::ToUpper`. -/
def ToUpper (w : List Char) : List Char := w.map toUpperChar

/-- One masking step of `Library::CreatePatternHash`: position `j` of the word
becomes `'.'` exactly when bit `j` of the mask `i` is set (`(i >> j) & 1`). -/
def maskChar (i j : Nat) (c : Char) : Char :=
  if (i >>> j) % 2 = 1 then '.' else c

def maskFrom (i : Nat) : Nat → List Char → List Char
  | _, [] => []
  | j, c :: cs => maskChar i j c :: maskFrom i (j + 1) cs

/-- The pattern obtained from word `w` under bitmask `i`. -/
def maskWord (w : List Char) (i : Nat) : List Char := maskFrom i 0 w

/-- The copies of `w` that `CreatePatternHash` pushes into the bucket of key `p`:
one per mask `i < 2^len` with `maskWord w i = p`. -/
def wordInserts (w : List Char) (p : List Char) : List (List Char) :=
  ((List.range (2 ^ w.length)).filter fun i => decide (maskWord w i = p)).map fun _ => w

/-- The bucket of key `p` in `m_umapWords` after inserting all words of `ws`
in order: a key exists in the map iff its bucket here is nonempty. -/
def bucket (ws : List (List Char)) (p : List Char) : List (List Char) :=
  (ws.map fun w => wordInserts w p).flatten

/-- `Library::FindWord`: the bucket for the pattern, or `none` if `p` is not a key. -/
def FindWord (ws : List (List Char)) (p : List Char) : Option (List (List Char)) :=
  if bucket ws p = [] then none else some (bucket ws p)

/-- `Library::IsWord`: whether `s` is a key of the pattern hash. -/
def IsWord (ws : List (List Char)) (s : List Char) : Bool := !(bucket ws s).isEmpty

/-- The one-character strip of `Library::ReadFromFile`: drop the last character
if it is `'\r'`, `' '` or `'\t'`. -/
def stripTrailing (l : List Char) : List Char :=
  match l.getLast? with
  | some c => if c = '\r' ∨ c = ' ' ∨ c = '\t' then l.dropLast else l
  | none => l

/-- Per-line processing of `Library::ReadFromFile`: skip empty lines, uppercase,
strip one trailing whitespace character, keep iff length ≤ `nMaxSize`. -/
def processLine (nMaxSize : Nat) (line : List Char) : Option (List Char) :=
  if line = [] then none
  else
    let u := stripTrailing (ToUpper line)
    if u.length ≤ nMaxSize then some u else none

/-- `Library::ReadFromFile` over an abstract line source: the resulting master
word list `m_vecWords`. -/
def readWords (lines : List (List Char)) (nMaxSize : Nat) : List (List Char) :=
  lines.filterMap (processLine nMaxSize)

-- ===== Grid loading =====

/-- `Grid::LoadFromFile` over an abstract line source: keep the lines that are
non-empty and do not begin with `'/'`. -/
def loadLines (lines : List (List Char)) : List (List Char) :=
  lines.filter fun l => decide (l ≠ [] ∧ l.head? ≠ some '/')

/-- The property `Grid::CheckSize` asserts: every line has the grid's column count. -/
def Grid.CheckSizeOk (g : Grid) : Prop := ∀ l ∈ g.vecLines, l.length = g.cols

instance (g : Grid) : Decidable (g.CheckSizeOk) := by
  unfold Grid.CheckSizeOk; infer_instance

-- ===== Span derivation (`Grid::FillSpans`) =====
-- `Grid::Next` / `Grid::NextStopAtWrap` advance a point through the grid in
-- scan order: row-major for the horizontal walk, column-major for the vertical
-- walk.  Both walks are linearised here: position `k` is the k-th cell in scan
-- order, `Next` is `k+1`, and `NextStopAtWrap` reports a wrap exactly when
-- `k+1` is a multiple of the line length.

/-- Length of one line in the scan direction (`cols` horizontally, `rows` vertically). -/
def dirLen (g : Grid) (vert : Bool) : Nat := if vert then g.rows else g.cols

/-- Number of scan lines (`rows` horizontally, `cols` vertically). -/
def dirCount (g : Grid) (vert : Bool) : Nat := if vert then g.cols else g.rows

/-- Number of in-bounds scan positions. -/
def totalCells (g : Grid) (vert : Bool) : Nat := dirLen g vert * dirCount g vert

/-- The point at linear scan position `k`. -/
def pointAt (g : Grid) (vert : Bool) (k : Nat) : Point :=
  if vert then ⟨k % g.rows, k / g.rows⟩ else ⟨k / g.cols, k % g.cols⟩

/-- `Grid::IsBlock` at linear scan position `k`. -/
def blockAt (g : Grid) (vert : Bool) (k : Nat) : Prop := g.IsBlock (pointAt g vert k)

instance (g : Grid) (vert : Bool) (k : Nat) : Decidable (blockAt g vert k) := by
  unfold blockAt; infer_instance

/-- The inner `while (IsInBounds(p) && IsBlock(p)) Next(p, vert)` loop of
`FillSpans`, with fuel (any fuel > `totalCells - k` gives the loop's answer). -/
def skipBF (g : Grid) (vert : Bool) : Nat → Nat → Nat
  | 0, k => k
  | fuel + 1, k =>
    if k < totalCells g vert ∧ blockAt g vert k then skipBF g vert fuel (k + 1) else k

/-- The `do { keep_going = NextStopAtWrap(p); len++ } while (keep_going && !IsBlock(p))`
loop of `FillSpans`, entered at position `k`: the resulting span length. -/
def runLenF (g : Grid) (vert : Bool) : Nat → Nat → Nat
  | 0, _ => 1
  | fuel + 1, k =>
    if (k + 1) % dirLen g vert = 0 then 1
    else if blockAt g vert (k + 1) then 1
    else 1 + runLenF g vert fuel (k + 1)

/-- The outer loop of `FillSpans(vert)` starting at scan position `k`. -/
def fillSF (g : Grid) (vert : Bool) : Nat → Nat → List Span
  | 0, _ => []
  | fuel + 1, k =>
    let k1 := skipBF g vert (totalCells g vert + 1) k
    if k1 < totalCells g vert then
      Span.mk (pointAt g vert k1) (runLenF g vert (dirLen g vert + 1) k1) vert ::
        fillSF g vert fuel (k1 + runLenF g vert (dirLen g vert + 1) k1)
    else []

/-- `Grid::FillSpans(bool vert)`: all spans of one direction, in scan order. -/
def FillSpansDir (g : Grid) (vert : Bool) : List Span :=
  fillSF g vert (totalCells g vert + 1) 0

/-- The span list `Grid::FillSpans()` builds: horizontal walk then vertical walk. -/
def Grid.FillSpansList (g : Grid) : List Span :=
  FillSpansDir g false ++ FillSpansDir g true

/-- `Grid::FillSpans()` (it asserts `vecSpans` is empty, then fills it). -/
def Grid.FillSpans (g : Grid) : Grid := { g with vecSpans := g.FillSpansList }

-- ===== Engine =====

/-- Outcome of (a prefix of) the search: the grids printed as solutions, and
whether an `assert` aborted the process. -/
structure SearchResult where
  sols : List Grid
  aborted : Bool
deriving DecidableEq

/-- The empty slots collected by the classification loop of `Engine::Loop`. -/
def emptySlots (g : Grid) : List Slot :=
  (g.vecSpans.filter fun sp => (g.SpanAttr sp).IsEmpty).map fun sp => ⟨sp, g.GetString sp⟩

/-- The partial slots collected by the classification loop of `Engine::Loop`. -/
def partialSlots (g : Grid) : List Slot :=
  (g.vecSpans.filter fun sp => (g.SpanAttr sp).IsPartial).map fun sp => ⟨sp, g.GetString sp⟩

/-- The full slots collected by the classification loop of `Engine::Loop`. -/
def fullSlots (g : Grid) : List Slot :=
  (g.vecSpans.filter fun sp => (g.SpanAttr sp).IsFull).map fun sp => ⟨sp, g.GetString sp⟩

/-- The duplicate scan of `Engine::Loop`: walk the full-slot strings, returning
`true` (prune) on the first string already seen. -/
def firstDup (seen : List (List Char)) : List (List Char) → Bool
  | [] => false
  | s :: rest => if s ∈ seen then true else firstDup (seen ++ [s]) rest

/-- `Engine::CommitSlot`'s candidate loop: the grid reference is mutated in
place, so each iteration writes into the grid left by the previous one; once a
recursive call aborts, nothing further runs. -/
def commitSeq (rec : Grid → SearchResult) (span : Span) :
    Grid × SearchResult → List (List Char) → Grid × SearchResult
  | acc, [] => acc
  | acc, w :: rest =>
    if acc.2.aborted then acc
    else
      let g2 := acc.1.SetString span w
      let r := rec g2
      commitSeq rec span (g2, ⟨acc.2.sols ++ r.sols, r.aborted⟩) rest

/-- One node of `Engine::Loop`, parameterised by the recursive call. -/
def loopStep (ws : List (List Char)) (rec : Grid → SearchResult) (g : Grid) :
    SearchResult :=
  let fs := fullSlots g
  if ¬ (fs.all fun sl => IsWord ws sl.sPattern) then ⟨[], false⟩
  else if firstDup [] (fs.map Slot.sPattern) then ⟨[], false⟩
  else
    match partialSlots g with
    | [] =>
      if (emptySlots g).length = 0 then ⟨[g], false⟩
      else ⟨[], true⟩   -- assert(nPartial > 0) fails
    | sl :: _ =>
      match FindWord ws sl.sPattern with
      | none => ⟨[], false⟩
      | some cands => (commitSeq rec sl.span (g, ⟨[], false⟩) cands).2

/-- `Engine::Loop` with fuel bounding the recursion depth. -/
def loopFuel (ws : List (List Char)) : Nat → Grid → SearchResult
  | 0 => fun _ => ⟨[], true⟩
  | fuel + 1 => loopStep ws (loopFuel ws fuel)

/-- `Engine::Search`: the recursion depth is bounded by the number of blank
cells plus one (see the fuel-stabilisation theorem), so this fuel is exact. -/
def Search (ws : List (List Char)) (g : Grid) : SearchResult :=
  loopFuel ws (g.countBlanks + 1) g

-- ===== Pattern-dictionary lemmas =====

theorem maskFrom_length (i : Nat) :
    ∀ (j : Nat) (w : List Char), (maskFrom i j w).length = w.length
  | _, [] => rfl
  | j, c :: cs => by
    simp only [maskFrom, List.length_cons, maskFrom_length i (j + 1) cs]

theorem maskWord_length (w : List Char) (i : Nat) :
    (maskWord w i).length = w.length := maskFrom_length i 0 w

theorem maskFrom_get (i : Nat) :
    ∀ (j n : Nat) (w : List Char),
      (maskFrom i j w)[n]? = (w[n]?).map (maskChar i (j + n))
  | _, _, [] => by simp [maskFrom]
  | j, 0, c :: cs => by simp [maskFrom]
  | j, n + 1, c :: cs => by
    simpa [maskFrom, Nat.add_assoc, Nat.add_comm 1 n] using
      maskFrom_get i (j + 1) n cs

theorem maskWord_get (w : List Char) (i n : Nat) :
    (maskWord w i)[n]? = (w[n]?).map (maskChar i n) := by
  simpa using maskFrom_get i 0 n w

theorem maskWord_zero (w : List Char) : maskWord w 0 = w := by
  refine List.ext_getElem? fun n => ?_
  cases h : w[n]? <;>
    simp [maskWord_get, maskChar, Nat.zero_shiftRight, h]

theorem mem_wordInserts {w p v : List Char} :
    v ∈ wordInserts w p ↔ v = w ∧ ∃ i, i < 2 ^ w.length ∧ maskWord w i = p := by
  unfold wordInserts
  simp only [List.mem_map, List.mem_filter, List.mem_range, decide_eq_true_eq]
  constructor
  · rintro ⟨i, ⟨hi, hm⟩, rfl⟩
    exact ⟨rfl, i, hi, hm⟩
  · rintro ⟨rfl, i, hi, hm⟩
    exact ⟨i, ⟨hi, hm⟩, rfl⟩

theorem mem_bucket_iff {ws : List (List Char)} {p v : List Char} :
    v ∈ bucket ws p ↔ v ∈ ws ∧ ∃ i, i < 2 ^ v.length ∧ maskWord v i = p := by
  unfold bucket
  simp only [List.mem_flatten, List.mem_map]
  constructor
  · rintro ⟨l, ⟨w, hw, rfl⟩, hv⟩
    rcases mem_wordInserts.1 hv with ⟨rfl, i, hi, hm⟩
    exact ⟨hw, i, hi, hm⟩
  · rintro ⟨hv, i, hi, hm⟩
    exact ⟨wordInserts v p, ⟨v, hv, rfl⟩, mem_wordInserts.2 ⟨rfl, i, hi, hm⟩⟩

theorem bucket_ne_nil_iff {ws : List (List Char)} {p : List Char} :
    bucket ws p ≠ [] ↔ ∃ w ∈ ws, ∃ i, i < 2 ^ w.length ∧ maskWord w i = p := by
  constructor
  · intro h
    rcases List.exists_mem_of_ne_nil _ h with ⟨v, hv⟩
    rcases mem_bucket_iff.1 hv with ⟨hvw, i, hi, hm⟩
    exact ⟨v, hvw, i, hi, hm⟩
  · rintro ⟨w, hw, i, hi, hm⟩
    exact List.ne_nil_of_mem (mem_bucket_iff.2 ⟨hw, i, hi, hm⟩)

theorem self_mem_bucket {ws : List (List Char)} {w : List Char} (hw : w ∈ ws)
    {i : Nat} (hi : i < 2 ^ w.length) : w ∈ bucket ws (maskWord w i) :=
  mem_bucket_iff.2 ⟨hw, i, hi, rfl⟩

theorem bucket_mem_length {ws : List (List Char)} {p v : List Char}
    (h : v ∈ bucket ws p) : v.length = p.length := by
  rcases mem_bucket_iff.1 h with ⟨_, i, _, hm⟩
  rw [← hm, maskWord_length]

/-- Where the pattern shows a non-wildcard character, every bucket word agrees. -/
theorem bucket_mem_agree {ws : List (List Char)} {p v : List Char}
    (h : v ∈ bucket ws p) {n : Nat} {c : Char} (hp : p[n]? = some c)
    (hc : c ≠ '.') : v[n]? = some c := by
  rcases mem_bucket_iff.1 h with ⟨_, i, _, hm⟩
  have hg := maskWord_get v i n
  rw [hm, hp] at hg
  rcases Option.map_eq_some'.1 hg.symm with ⟨d, hd, hcd⟩
  unfold maskChar at hcd
  by_cases hbit : (i >>> n) % 2 = 1
  · rw [if_pos hbit] at hcd
    exact absurd hcd.symm hc
  · rw [if_neg hbit] at hcd
    rw [hd, hcd]

/-- A mask that produces an all-letters pattern masks nothing: the key is the word. -/
theorem maskWord_allLetters {w s : List Char} {i : Nat}
    (hm : maskWord w i = s) (hs : AllLetters s) : w = s := by
  refine List.ext_getElem? fun n => ?_
  have hg := maskWord_get w i n
  rw [hm] at hg
  cases hw : w[n]? with
  | none =>
    rw [hw] at hg
    simp only [Option.map_none'] at hg
    exact hg.symm
  | some c =>
    rw [hw] at hg
    simp only [Option.map_some'] at hg
    unfold maskChar at hg
    by_cases hbit : (i >>> n) % 2 = 1
    · exfalso
      rw [if_pos hbit] at hg
      have hdot : '.' ∈ s := List.getElem?_mem hg
      have := hs '.' hdot
      simp [isUpperAZ] at this
    · rw [if_neg hbit] at hg
      exact hg.symm

theorem isWord_eq_true_iff {ws : List (List Char)} {s : List Char} :
    IsWord ws s = true ↔ bucket ws s ≠ [] := by
  unfold IsWord
  cases h : bucket ws s <;> simp [h]

/-- `IsWord` is accurate exactly on all-letters strings: such a string is a key
of the pattern hash iff it is one of the loaded words. -/
theorem isWord_allLetters_iff {ws : List (List Char)} {s : List Char}
    (hs : AllLetters s) : IsWord ws s = true ↔ s ∈ ws := by
  rw [isWord_eq_true_iff, bucket_ne_nil_iff]
  constructor
  · rintro ⟨w, hw, i, _, hm⟩
    rw [← maskWord_allLetters hm hs]; exact hw
  · intro hmem
    exact ⟨s, hmem, 0, Nat.pos_pow_of_pos _ (by decide), maskWord_zero s⟩

/-- C2: the pattern index is complete.  For every word that survives dictionary
load and every bitmask over its positions, the masked pattern is a key whose
bucket contains the word, and `FindWord` on that pattern returns a list
containing it; a pattern that is the masked pattern of no loaded word is not a
key, and `FindWord` returns `none` on it. -/
theorem C2_pattern_index_complete (lines : List (List Char)) (nMaxSize : Nat) :
    (∀ w ∈ readWords lines nMaxSize, ∀ i, i < 2 ^ w.length →
      w ∈ bucket (readWords lines nMaxSize) (maskWord w i) ∧
      ∃ b, FindWord (readWords lines nMaxSize) (maskWord w i) = some b ∧ w ∈ b) ∧
    (∀ p, (∀ w ∈ readWords lines nMaxSize, ∀ i, i < 2 ^ w.length → maskWord w i ≠ p) →
      FindWord (readWords lines nMaxSize) p = none) := by
  constructor
  · intro w hw i hi
    have hmem := self_mem_bucket hw hi
    refine ⟨hmem, bucket _ _, ?_, hmem⟩
    unfold FindWord
    rw [if_neg (List.ne_nil_of_mem hmem)]
  · intro p hp
    have hnil : bucket (readWords lines nMaxSize) p = [] := by
      by_contra hne
      rcases bucket_ne_nil_iff.1 hne with ⟨w, hw, i, hi, hm⟩
      exact hp w hw i hi hm
    unfold FindWord
    rw [if_pos hnil]

/-- C2 witness: with the single loaded word `CAT`, the mask `2` gives the key
`C.T` whose bucket contains `CAT`, and the never-masked pattern `C` is no key. -/
theorem C2_pattern_index_complete_witness :
    ['C', 'A', 'T'] ∈
      bucket (readWords [['C', 'A', 'T']] 3) (maskWord ['C', 'A', 'T'] 2) ∧
    FindWord (readWords [['C', 'A', 'T']] 3) ['C'] = none :=
  ⟨((C2_pattern_index_complete [['C', 'A', 'T']] 3).1 ['C', 'A', 'T'] (by decide) 2
      (by decide)).1,
    (C2_pattern_index_complete [['C', 'A', 'T']] 3).2 ['C'] (by decide)⟩

/-- C10: `IsWord` only tests key-ness of the pattern hash, so on all-letters
strings it coincides with membership in the loaded word list, while a wildcard
pattern such as `.AT` can also satisfy it after loading `CAT` even though it is
not a loaded word. -/
theorem C10_isWord_membership :
    (∀ (ws : List (List Char)) (s : List Char), AllLetters s →
      (IsWord ws s = true ↔ s ∈ ws)) ∧
    IsWord [['C', 'A', 'T']] ['.', 'A', 'T'] = true ∧
    ['.', 'A', 'T'] ∉ [[ 'C', 'A', 'T' ]] := by
  refine ⟨fun ws s hs => isWord_allLetters_iff hs, by decide, by decide⟩

/-- C10 witness: the membership reading applied to the loaded word `CAT` itself. -/
theorem C10_isWord_membership_witness :
    IsWord [['C', 'A', 'T']] ['C', 'A', 'T'] = true :=
  (C10_isWord_membership.1 [['C', 'A', 'T']] ['C', 'A', 'T'] (by decide)).2 (by decide)

/-- C5 counterexample: the line `A1` contains a character outside `A`–`Z`, yet
dictionary load keeps it (no alphabet validation exists in
`Library::ReadFromFile`), contradicting the claimed discard condition. -/
theorem C5_counterexample :
    readWords [['A', '1']] 5 = [['A', '1']] ∧ ¬ AllLetters ['A', '1'] := by
  decide

/-- C5 amended: load keeps (uppercased, once-stripped) lines exactly when the
original line is non-empty and the resulting length is at most the maximum;
at most one trailing whitespace character is stripped; no alphabet check is
performed; every surviving word is inserted into all its pattern buckets. -/
theorem C5_amended_load_characterisation :
    (∀ (lines : List (List Char)) (nMaxSize : Nat),
      readWords lines nMaxSize =
        ((lines.filter fun l => !l.isEmpty).map fun l => stripTrailing (ToUpper l)).filter
          fun w => decide (w.length ≤ nMaxSize)) ∧
    (∀ l : List Char, stripTrailing l = l ∨
      ∃ c, l = stripTrailing l ++ [c] ∧ (c = '\r' ∨ c = ' ' ∨ c = '\t')) ∧
    (∀ (lines : List (List Char)) (nMaxSize : Nat), ∀ w ∈ readWords lines nMaxSize,
      w.length ≤ nMaxSize ∧
      ∀ i, i < 2 ^ w.length → w ∈ bucket (readWords lines nMaxSize) (maskWord w i)) := by
  have hchar : ∀ (lines : List (List Char)) (nMaxSize : Nat),
      readWords lines nMaxSize =
        ((lines.filter fun l => !l.isEmpty).map fun l => stripTrailing (ToUpper l)).filter
          fun w => decide (w.length ≤ nMaxSize) := by
    intro lines nMaxSize
    induction lines with
    | nil => rfl
    | cons l ls ih =>
      by_cases hl : l = []
      · subst hl
        simpa [readWords, processLine] using ih
      · have hle : l.isEmpty = false := List.isEmpty_eq_false.2 hl
        have h2 : (l :: ls).filter (fun l => !l.isEmpty) =
            l :: ls.filter (fun l => !l.isEmpty) := by
          simp [List.filter_cons, hle]
        by_cases hlen : (stripTrailing (ToUpper l)).length ≤ nMaxSize
        · have h1 : readWords (l :: ls) nMaxSize =
              stripTrailing (ToUpper l) :: readWords ls nMaxSize := by
            simp [readWords, processLine, hl, hlen]
          rw [h1, ih, h2, List.map_cons, List.filter_cons]
          simp [hlen]
        · have h1 : readWords (l :: ls) nMaxSize = readWords ls nMaxSize := by
            simp [readWords, processLine, hl, hlen]
          rw [h1, ih, h2, List.map_cons, List.filter_cons]
          simp [hlen]
  refine ⟨hchar, ?_, ?_⟩
  · intro l
    cases hg : l.getLast? with
    | none =>
      left
      simp only [stripTrailing, hg]
    | some c =>
      by_cases hc : c = '\r' ∨ c = ' ' ∨ c = '\t'
      · right
        refine ⟨c, ?_, hc⟩
        have hs : stripTrailing l = l.dropLast := by
          simp only [stripTrailing, hg]
          exact if_pos hc
        rw [hs]
        exact (List.dropLast_append_getLast? c hg).symm
      · left
        simp only [stripTrailing, hg]
        exact if_neg hc
  · intro lines nMaxSize w hw
    constructor
    · rw [hchar] at hw
      have := List.of_mem_filter hw
      simpa using this
    · intro i hi
      exact self_mem_bucket hw hi

/-- The 5×1 single-row all-blank grid of the spec's duplicate-pruning scenario,
loaded and with its spans derived. -/
def gridFiveByOne : Grid :=
  (Grid.mk [] (loadLines [['.', '.', '.', '.', '.']]) []).FillSpans

/-- The dictionary `{HELLO, WORLD}` loaded against that grid's maximum size. -/
def libHelloWorld : List (List Char) :=
  readWords [['H', 'E', 'L', 'L', 'O'], ['W', 'O', 'R', 'L', 'D']] gridFiveByOne.MaxSize

/-- The loaded 5×1 grid written out: one horizontal span of length 5 and five
vertical spans of length 1 (evaluated once here; later facts rewrite with this
equation instead of re-running `FillSpans`). -/
theorem gridFiveByOne_eq :
    gridFiveByOne = Grid.mk [] [['.', '.', '.', '.', '.']]
      [Span.mk (Point.mk 0 0) 5 false, Span.mk (Point.mk 0 0) 1 true,
       Span.mk (Point.mk 0 1) 1 true, Span.mk (Point.mk 0 2) 1 true,
       Span.mk (Point.mk 0 3) 1 true, Span.mk (Point.mk 0 4) 1 true] := rfl

/-- Both words survive the dictionary load. -/
theorem libHelloWorld_eq :
    libHelloWorld = [['H', 'E', 'L', 'L', 'O'], ['W', 'O', 'R', 'L', 'D']] := rfl

/-- The root node of the all-blank grid has no partial slot. -/
theorem partialSlots_fiveByOne : partialSlots gridFiveByOne = [] := by
  rw [gridFiveByOne_eq]
  decide

/-- All six slots of the all-blank grid are classified as empty. -/
theorem emptySlots_fiveByOne_len : (emptySlots gridFiveByOne).length = 6 := by
  rw [gridFiveByOne_eq]
  decide

/-- The search on the 5×1 all-blank grid aborts at the root with no emission. -/
theorem searchFiveByOne_eq : Search libHelloWorld gridFiveByOne = ⟨[], true⟩ := by
  rw [gridFiveByOne_eq, libHelloWorld_eq]
  decide

/-- C3 counterexample: on the 5×1 all-blank grid with `{HELLO, WORLD}` the
engine emits no solution at all and the `assert(nPartial > 0)` progress
assertion fails at the root — not the two solutions the claim states. -/
theorem C3_counterexample :
    (Search libHelloWorld gridFiveByOne).sols = [] ∧
    (Search libHelloWorld gridFiveByOne).aborted = true := by
  rw [searchFiveByOne_eq]
  exact ⟨rfl, rfl⟩

/-- C3 amended: both words load, but the root node of the 5×1 all-blank grid
classifies all six slots (one horizontal of length 5, five vertical of
length 1) as empty, so no partial slot exists, the progress assertion fails
(`InternalError`) and the search aborts with no emission. -/
theorem C3_amended_all_blank_aborts :
    libHelloWorld = [['H', 'E', 'L', 'L', 'O'], ['W', 'O', 'R', 'L', 'D']] ∧
    gridFiveByOne.vecSpans.length = 6 ∧
    partialSlots gridFiveByOne = [] ∧
    (emptySlots gridFiveByOne).length = 6 ∧
    Search libHelloWorld gridFiveByOne = ⟨[], true⟩ :=
  ⟨libHelloWorld_eq, by rw [gridFiveByOne_eq]; rfl, partialSlots_fiveByOne,
    emptySlots_fiveByOne_len, searchFiveByOne_eq⟩

/-- C6 counterexample: a trailing `'\r'` on a grid line is kept and becomes a
cell (the line's length includes it), and a line with the invalid cell `'x'`
passes loading and the size check — `Grid::LoadFromFile` neither strips `'\r'`
nor validates cells against `{#, ., A-Z}`. -/
theorem C6_counterexample :
    loadLines [['.', '\r']] = [['.', '\r']] ∧
    (Grid.mk [] (loadLines [['.', '\r']]) []).cols = 2 ∧
    loadLines [['x']] = [['x']] ∧
    (Grid.mk [] (loadLines [['x']]) []).CheckSizeOk := by
  refine ⟨by decide, by decide, by decide, by decide⟩

/-- C6 amended: grid construction keeps exactly the non-empty lines not
beginning with `'/'`, verbatim (no cell validation, `'\r'` kept as a cell);
the `CheckSize` assertion fails exactly when some kept line's length differs
from the first line's length, in particular whenever two kept lines differ in
length. -/
theorem C6_amended_load :
    (∀ lines : List (List Char),
      loadLines lines = lines.filter fun l => decide (l ≠ [] ∧ l.head? ≠ some '/')) ∧
    (∀ (g : Grid), ∀ l1 ∈ g.vecLines, ∀ l2 ∈ g.vecLines,
      l1.length ≠ l2.length → ¬ g.CheckSizeOk) ∧
    (∀ g : Grid, (∀ l ∈ g.vecLines, l.length = g.cols) → g.CheckSizeOk) := by
  refine ⟨fun lines => rfl, ?_, fun g h => h⟩
  intro g l1 h1 l2 h2 hne hok
  exact hne ((hok l1 h1).trans (hok l2 h2).symm)

/-- C6 amended witness: the two-line grid `#` / `##` has lines of different
lengths, so the size check fails on it. -/
theorem C6_amended_load_witness :
    ¬ (Grid.mk [] [['#'], ['#', '#']] []).CheckSizeOk :=
  C6_amended_load.2.1 (Grid.mk [] [['#'], ['#', '#']] []) ['#'] (by decide)
    ['#', '#'] (by decide) (by decide)

-- ===== Cell-level lemmas about `SetChar` / `SetString` =====

theorem listSetSame {α : Type} :
    ∀ (l : List α) (n : Nat) (a : α), l[n]? = some a → l.set n a = l
  | [], _, _, h => by simp at h
  | b :: bs, 0, a, h => by
    simp only [List.getElem?_cons_zero, Option.some.injEq] at h
    simp [List.set, h]
  | b :: bs, n + 1, a, h => by
    simp only [List.getElem?_cons_succ] at h
    simp [List.set, listSetSame bs n a h]

theorem getD_set_self {α : Type} (l : List α) (n : Nat) (a d : α)
    (hn : n < l.length) : (l.set n a).getD n d = a := by
  rw [List.getD_eq_getElem?_getD, List.getElem?_set_self hn]
  rfl

theorem getD_set_ne {α : Type} (l : List α) {n m : Nat} (a d : α)
    (h : n ≠ m) : (l.set n a).getD m d = l.getD m d := by
  rw [List.getD_eq_getElem?_getD, List.getElem?_set_ne h, ← List.getD_eq_getElem?_getD]

theorem Grid.rows_SetChar (g : Grid) (p : Point) (c : Char) :
    (g.SetChar p c).rows = g.rows := by
  simp [Grid.SetChar, Grid.rows]

theorem Grid.vecSpans_SetChar (g : Grid) (p : Point) (c : Char) :
    (g.SetChar p c).vecSpans = g.vecSpans := rfl

theorem point_eq_iff {p q : Point} : p = q ↔ p.nRow = q.nRow ∧ p.nCol = q.nCol := by
  cases p; cases q; simp

/-- A write whose row is out of range is a no-op (the source asserts instead). -/
theorem Grid.SetChar_oob (g : Grid) (p : Point) (c : Char)
    (h : g.vecLines.length ≤ p.nRow) : g.SetChar p c = g := by
  unfold Grid.SetChar
  rw [List.set_eq_of_length_le h]

/-- Cell reads after a single cell write. -/
theorem Grid.getCell_SetChar (g : Grid) (p q : Point) (c : Char) :
    (g.SetChar p c).getCell q =
      if p = q then (g.getCell q).map fun _ => c else g.getCell q := by
  by_cases hrow : p.nRow < g.vecLines.length
  · by_cases hr : p.nRow = q.nRow
    · have hsome : ∃ row, g.vecLines[p.nRow]? = some row :=
        ⟨g.vecLines[p.nRow], List.getElem?_eq_some_iff.2 ⟨hrow, rfl⟩⟩
      rcases hsome with ⟨row, hrowv⟩
      have hgetD : g.vecLines.getD p.nRow [] = row := by
        rw [List.getD_eq_getElem?_getD, hrowv]; rfl
      unfold Grid.SetChar Grid.getCell
      simp only [← hr]
      rw [List.getElem?_set_self hrow, hrowv, hgetD, Option.some_bind, Option.some_bind]
      by_cases hc : p.nCol = q.nCol
      · have hpq : p = q := point_eq_iff.2 ⟨hr, hc⟩
        rw [if_pos hpq, ← hc, List.getElem?_set_self']
        rfl
      · have hpq : p ≠ q := fun hh => hc (point_eq_iff.1 hh).2
        rw [if_neg hpq, List.getElem?_set_ne hc]
    · have hpq : p ≠ q := fun hh => hr (point_eq_iff.1 hh).1
      unfold Grid.SetChar Grid.getCell
      simp only
      rw [if_neg hpq, List.getElem?_set_ne hr]
  · have hle : g.vecLines.length ≤ p.nRow := Nat.le_of_not_lt hrow
    rw [Grid.SetChar_oob g p c hle]
    by_cases hpq : p = q
    · have hrq : p.nRow = q.nRow := (point_eq_iff.1 hpq).1
      have hnone : g.getCell q = none := by
        unfold Grid.getCell
        rw [List.getElem?_eq_none_iff.2 (by omega : g.vecLines.length ≤ q.nRow)]
        rfl
      rw [if_pos hpq, hnone]
      rfl
    · rw [if_neg hpq]

/-- Writing the character a cell already holds changes nothing. -/
theorem Grid.SetChar_same (g : Grid) (p : Point) (c : Char)
    (h : g.getCell p = some c) : g.SetChar p c = g := by
  unfold Grid.getCell at h
  rcases ho : g.vecLines[p.nRow]? with _ | row
  · rw [ho] at h; simp at h
  · rw [ho, Option.some_bind] at h
    have hgetD : g.vecLines.getD p.nRow [] = row := by
      rw [List.getD_eq_getElem?_getD, ho]; rfl
    unfold Grid.SetChar
    rw [hgetD, listSetSame row p.nCol c h, listSetSame g.vecLines p.nRow row ho]

/-- Writes to the same cell absorb. -/
theorem Grid.SetChar_absorb (g : Grid) (p : Point) (a b : Char) :
    (g.SetChar p a).SetChar p b = g.SetChar p b := by
  by_cases hrow : p.nRow < g.vecLines.length
  · unfold Grid.SetChar
    simp only
    rw [getD_set_self _ _ _ _ hrow, List.set_set, List.set_set]
  · have hle : g.vecLines.length ≤ p.nRow := Nat.le_of_not_lt hrow
    have hle2 : (g.SetChar p a).vecLines.length ≤ p.nRow := by
      unfold Grid.SetChar
      simpa using hle
    rw [Grid.SetChar_oob _ _ _ hle2, Grid.SetChar_oob g p a hle,
      Grid.SetChar_oob g p b hle]

/-- Writes to different cells commute. -/
theorem Grid.SetChar_comm (g : Grid) {p q : Point} (a b : Char) (h : p ≠ q) :
    (g.SetChar p a).SetChar q b = (g.SetChar q b).SetChar p a := by
  have hlen : ∀ (g' : Grid) (r : Point) (ch : Char),
      (g'.SetChar r ch).vecLines.length = g'.vecLines.length := by
    intro g' r ch
    unfold Grid.SetChar
    simp
  by_cases hrow : p.nRow < g.vecLines.length
  · by_cases hrow' : q.nRow < g.vecLines.length
    · by_cases hr : p.nRow = q.nRow
      · have hc : p.nCol ≠ q.nCol := fun hcc => h (point_eq_iff.2 ⟨hr, hcc⟩)
        unfold Grid.SetChar
        simp only [← hr]
        rw [getD_set_self _ _ _ _ hrow, getD_set_self _ _ _ _ hrow,
          List.set_set, List.set_set, List.set_comm _ _ _ hc]
      · unfold Grid.SetChar
        simp only
        rw [getD_set_ne _ _ _ (Ne.symm hr), getD_set_ne _ _ _ hr,
          List.set_comm _ _ _ hr]
    · have hle' : g.vecLines.length ≤ q.nRow := Nat.le_of_not_lt hrow'
      rw [Grid.SetChar_oob (g.SetChar p a) q b (by rw [hlen]; exact hle'),
        Grid.SetChar_oob g q b hle']
  · have hle : g.vecLines.length ≤ p.nRow := Nat.le_of_not_lt hrow
    rw [Grid.SetChar_oob g p a hle,
      Grid.SetChar_oob (g.SetChar q b) p a (by rw [hlen]; exact hle)]

theorem Span.GetPoint_inj (sp : Span) {i j : Nat}
    (h : sp.GetPoint i = sp.GetPoint j) : i = j := by
  unfold Span.GetPoint at h
  cases hv : sp.bVert <;> rw [hv] at h <;> simp [point_eq_iff] at h <;> omega

theorem Grid.vecSpans_writeRange (g : Grid) (sp : Span) (str : List Char) :
    ∀ n, (g.writeRange sp str n).vecSpans = g.vecSpans
  | 0 => rfl
  | n + 1 => by
    simp only [Grid.writeRange, Grid.vecSpans_SetChar, Grid.vecSpans_writeRange g sp str n]

theorem Grid.rows_writeRange (g : Grid) (sp : Span) (str : List Char) :
    ∀ n, (g.writeRange sp str n).rows = g.rows
  | 0 => rfl
  | n + 1 => by
    simp only [Grid.writeRange, Grid.rows_SetChar, Grid.rows_writeRange g sp str n]

/-- Cells off the first `n` span points are untouched by `writeRange`. -/
theorem Grid.getCell_writeRange_out (g : Grid) (sp : Span) (str : List Char) :
    ∀ (n : Nat) (q : Point), (∀ i, i < n → sp.GetPoint i ≠ q) →
      (g.writeRange sp str n).getCell q = g.getCell q
  | 0, _, _ => rfl
  | n + 1, q, h => by
    unfold Grid.writeRange
    rw [Grid.getCell_SetChar, if_neg (h n (Nat.lt_succ_self n)),
      Grid.getCell_writeRange_out g sp str n q fun i hi => h i (Nat.lt_succ_of_lt hi)]

/-- The cell at span point `j < n` after `writeRange` holds `str[j]` (when it exists). -/
theorem Grid.getCell_writeRange_at (g : Grid) (sp : Span) (str : List Char) :
    ∀ (n j : Nat), j < n →
      (g.writeRange sp str n).getCell (sp.GetPoint j) =
        (g.getCell (sp.GetPoint j)).map fun _ => str.getD j '?'
  | 0, _, h => absurd h (Nat.not_lt_zero _)
  | n + 1, j, h => by
    unfold Grid.writeRange
    by_cases hj : j = n
    · subst hj
      rw [Grid.getCell_SetChar, if_pos rfl,
        Grid.getCell_writeRange_out g sp str j _ fun i hi hip => by
          rw [sp.GetPoint_inj hip] at hi
          exact Nat.lt_irrefl _ hi]
    · have hjn : j < n := Nat.lt_of_le_of_ne (Nat.le_of_lt_succ h) hj
      rw [Grid.getCell_SetChar,
        if_neg fun hip => hj (sp.GetPoint_inj hip).symm,
        Grid.getCell_writeRange_at g sp str n j hjn]

/-- A write at a point off the first `n` span points commutes with `writeRange`. -/
theorem Grid.writeRange_SetChar_comm (g : Grid) (sp : Span) (str : List Char)
    (r : Point) (a : Char) :
    ∀ n, (∀ i, i < n → sp.GetPoint i ≠ r) →
      (g.SetChar r a).writeRange sp str n = (g.writeRange sp str n).SetChar r a
  | 0, _ => rfl
  | n + 1, h => by
    unfold Grid.writeRange
    rw [Grid.writeRange_SetChar_comm g sp str r a n fun i hi => h i (Nat.lt_succ_of_lt hi),
      Grid.SetChar_comm _ _ _ (fun hpr => h n (Nat.lt_succ_self n) hpr.symm)]

/-- Rewriting the same span fully overwrites the previous write. -/
theorem Grid.writeRange_writeRange (g : Grid) (sp : Span) (a b : List Char) :
    ∀ n, (g.writeRange sp a n).writeRange sp b n = g.writeRange sp b n
  | 0 => rfl
  | n + 1 => by
    simp only [Grid.writeRange]
    rw [Grid.writeRange_SetChar_comm _ sp b _ _ n fun i hi hip => by
        rw [sp.GetPoint_inj hip] at hi
        exact Nat.lt_irrefl _ hi,
      Grid.SetChar_absorb, Grid.writeRange_writeRange g sp a b n]

/-- `SetString` twice on the same span keeps only the second word. -/
theorem Grid.SetString_SetString (g : Grid) (sp : Span) (a b : List Char) :
    (g.SetString sp a).SetString sp b = g.SetString sp b :=
  Grid.writeRange_writeRange g sp a b sp.nLen

theorem Grid.vecSpans_SetString (g : Grid) (sp : Span) (str : List Char) :
    (g.SetString sp str).vecSpans = g.vecSpans :=
  Grid.vecSpans_writeRange g sp str sp.nLen

-- ===== `GetString` / `SpanAttr` lemmas =====

theorem Grid.GetString_length (g : Grid) (sp : Span) :
    (g.GetString sp).length = sp.nLen := by
  simp [Grid.GetString]

theorem Grid.GetString_getElem (g : Grid) (sp : Span) {i : Nat} (h : i < sp.nLen) :
    (g.GetString sp)[i]? = some (g.GetChar (sp.GetPoint i)) := by
  unfold Grid.GetString
  rw [List.getElem?_map, List.getElem?_range h]
  rfl

theorem GetChar_dot_iff (g : Grid) (p : Point) :
    g.GetChar p = '.' ↔ g.getCell p = some '.' := by
  unfold Grid.GetChar
  cases h : g.getCell p with
  | none => exact iff_of_false (by decide) (by simp)
  | some c => simp

theorem hasBlanks_iff (g : Grid) (sp : Span) :
    (g.SpanAttr sp).bHasBlanks = true ↔
      ∃ i, i < sp.nLen ∧ g.GetChar (sp.GetPoint i) = '.' := by
  unfold Grid.SpanAttr Grid.GetString
  simp only [List.any_eq_true, List.mem_map, List.mem_range, decide_eq_true_eq]
  constructor
  · rintro ⟨c, ⟨i, hi, rfl⟩, hc⟩
    exact ⟨i, hi, hc⟩
  · rintro ⟨i, hi, hc⟩
    exact ⟨_, ⟨i, hi, rfl⟩, hc⟩

theorem hasLetters_iff (g : Grid) (sp : Span) :
    (g.SpanAttr sp).bHasLetters = true ↔
      ∃ i, i < sp.nLen ∧ isUpperAZ (g.GetChar (sp.GetPoint i)) := by
  unfold Grid.SpanAttr Grid.GetString
  simp only [List.any_eq_true, List.mem_map, List.mem_range, Bool.and_eq_true,
    Bool.not_eq_true', decide_eq_false_iff_not, decide_eq_true_eq]
  constructor
  · rintro ⟨c, ⟨i, hi, rfl⟩, _, hc⟩
    exact ⟨i, hi, hc⟩
  · rintro ⟨i, hi, hc⟩
    refine ⟨_, ⟨i, hi, rfl⟩, fun hdot => ?_, hc⟩
    rw [hdot] at hc
    exact absurd hc.1 (by decide)

-- ===== Blank counting =====

theorem countP_set_le {α : Type} (p : α → Bool) :
    ∀ (l : List α) (n : Nat) (a : α), p a = false →
      (l.set n a).countP p ≤ l.countP p
  | [], _, _, _ => Nat.le_refl _
  | b :: bs, 0, a, h => by
    have h1 : List.countP p ((b :: bs).set 0 a) = List.countP p bs := by
      simp [List.countP_cons, h]
    have h2 : List.countP p bs ≤ List.countP p (b :: bs) := by
      rw [List.countP_cons]
      exact Nat.le_add_right _ _
    omega
  | b :: bs, n + 1, a, h => by
    have h1 : (b :: bs).set (n + 1) a = b :: bs.set n a := rfl
    rw [h1, List.countP_cons, List.countP_cons]
    have := countP_set_le p bs n a h
    omega

theorem countP_set_lt {α : Type} (p : α → Bool) :
    ∀ (l : List α) (n : Nat) (a b : α), l[n]? = some b → p b = true → p a = false →
      (l.set n a).countP p < l.countP p
  | [], _, _, _, hb, _, _ => by simp at hb
  | c :: cs, 0, a, b, hb, hpb, hpa => by
    simp only [List.getElem?_cons_zero, Option.some.injEq] at hb
    have hpc : p c = true := by rw [hb]; exact hpb
    have h1 : List.countP p ((c :: cs).set 0 a) = List.countP p cs := by
      simp [List.countP_cons, hpa]
    have h2 : List.countP p (c :: cs) = List.countP p cs + 1 := by
      simp [List.countP_cons, hpc]
    omega
  | c :: cs, n + 1, a, b, hb, hpb, hpa => by
    simp only [List.getElem?_cons_succ] at hb
    have h1 : (c :: cs).set (n + 1) a = c :: cs.set n a := rfl
    rw [h1, List.countP_cons, List.countP_cons]
    have := countP_set_lt p cs n a b hb hpb hpa
    omega

theorem sum_set_le :
    ∀ (L : List Nat) (n x y : Nat), L[n]? = some y → x ≤ y →
      (L.set n x).sum ≤ L.sum
  | [], _, _, _, h, _ => by simp at h
  | a :: as, 0, x, y, h, hxy => by
    simp only [List.getElem?_cons_zero, Option.some.injEq] at h
    subst h
    simp only [List.set, List.sum_cons]
    omega
  | a :: as, n + 1, x, y, h, hxy => by
    simp only [List.getElem?_cons_succ] at h
    simp only [List.set, List.sum_cons]
    have := sum_set_le as n x y h hxy
    omega

theorem sum_set_lt :
    ∀ (L : List Nat) (n x y : Nat), L[n]? = some y → x < y →
      (L.set n x).sum < L.sum
  | [], _, _, _, h, _ => by simp at h
  | a :: as, 0, x, y, h, hxy => by
    simp only [List.getElem?_cons_zero, Option.some.injEq] at h
    subst h
    simp only [List.set, List.sum_cons]
    omega
  | a :: as, n + 1, x, y, h, hxy => by
    simp only [List.getElem?_cons_succ] at h
    simp only [List.set, List.sum_cons]
    have := sum_set_lt as n x y h hxy
    omega

/-- Writing a non-blank character never increases the blank count. -/
theorem Grid.countBlanks_SetChar_le (g : Grid) (p : Point) {c : Char}
    (hc : c ≠ '.') : (g.SetChar p c).countBlanks ≤ g.countBlanks := by
  by_cases hrow : p.nRow < g.vecLines.length
  · have hsome : g.vecLines[p.nRow]? = some g.vecLines[p.nRow] :=
      List.getElem?_eq_some_iff.2 ⟨hrow, rfl⟩
    have hgetD : g.vecLines.getD p.nRow [] = g.vecLines[p.nRow] := by
      rw [List.getD_eq_getElem?_getD, hsome]; rfl
    unfold Grid.countBlanks Grid.SetChar
    simp only [hgetD, List.map_set]
    refine sum_set_le _ _ _ (g.vecLines[p.nRow].countP fun c => decide (c = '.')) ?_ ?_
    · rw [List.getElem?_map, hsome]
      rfl
    · exact countP_set_le _ _ _ _ (by simp [hc])
  · rw [Grid.SetChar_oob g p c (Nat.le_of_not_lt hrow)]

/-- Writing a non-blank character over a blank cell strictly decreases the count. -/
theorem Grid.countBlanks_SetChar_lt (g : Grid) (p : Point) {c : Char}
    (hcell : g.getCell p = some '.') (hc : c ≠ '.') :
    (g.SetChar p c).countBlanks < g.countBlanks := by
  unfold Grid.getCell at hcell
  rcases ho : g.vecLines[p.nRow]? with _ | row
  · rw [ho] at hcell; simp at hcell
  · rw [ho, Option.some_bind] at hcell
    have hrow : p.nRow < g.vecLines.length := by
      by_contra hn
      rw [List.getElem?_eq_none_iff.2 (Nat.le_of_not_lt hn)] at ho
      exact Option.noConfusion ho
    have hgetD : g.vecLines.getD p.nRow [] = row := by
      rw [List.getD_eq_getElem?_getD, ho]; rfl
    unfold Grid.countBlanks Grid.SetChar
    simp only [hgetD, List.map_set]
    refine sum_set_lt _ _ _ (row.countP fun c => decide (c = '.')) ?_ ?_
    · rw [List.getElem?_map, ho]
      rfl
    · exact countP_set_lt _ _ _ _ '.' hcell (by simp) (by simp [hc])

theorem Grid.countBlanks_writeRange_le (g : Grid) (sp : Span) (str : List Char) :
    ∀ n, (∀ i, i < n → str.getD i '?' ≠ '.') →
      (g.writeRange sp str n).countBlanks ≤ g.countBlanks
  | 0, _ => Nat.le_refl _
  | n + 1, h => by
    unfold Grid.writeRange
    exact Nat.le_trans
      (Grid.countBlanks_SetChar_le _ _ (h n (Nat.lt_succ_self n)))
      (Grid.countBlanks_writeRange_le g sp str n fun i hi => h i (Nat.lt_succ_of_lt hi))

theorem Grid.countBlanks_writeRange_lt (g : Grid) (sp : Span) (str : List Char) :
    ∀ n, (∀ i, i < n → str.getD i '?' ≠ '.') →
      (∃ i, i < n ∧ g.getCell (sp.GetPoint i) = some '.') →
      (g.writeRange sp str n).countBlanks < g.countBlanks
  | 0, _, hb => absurd hb (by simp)
  | n + 1, h, hb => by
    rcases hb with ⟨i0, hi0, hcell0⟩
    unfold Grid.writeRange
    by_cases hlast : ∃ i, i < n ∧ g.getCell (sp.GetPoint i) = some '.'
    · exact Nat.lt_of_le_of_lt
        (Grid.countBlanks_SetChar_le _ _ (h n (Nat.lt_succ_self n)))
        (Grid.countBlanks_writeRange_lt g sp str n
          (fun i hi => h i (Nat.lt_succ_of_lt hi)) hlast)
    · have hi0n : i0 = n := by
        by_contra hne
        exact hlast ⟨i0, Nat.lt_of_le_of_ne (Nat.le_of_lt_succ hi0) hne, hcell0⟩
      rw [hi0n] at hcell0
      have huntouched : (g.writeRange sp str n).getCell (sp.GetPoint n) = some '.' := by
        rw [Grid.getCell_writeRange_out g sp str n _ fun i hi hip => by
          rw [sp.GetPoint_inj hip] at hi
          exact Nat.lt_irrefl _ hi]
        exact hcell0
      exact Nat.lt_of_lt_of_le
        (Grid.countBlanks_SetChar_lt _ _ huntouched (h n (Nat.lt_succ_self n)))
        (Grid.countBlanks_writeRange_le g sp str n fun i hi => h i (Nat.lt_succ_of_lt hi))

/-- C5 amended witness: concrete instances of each conjunct (the word `AB`
survives with max 2 and sits in its own bucket; `AB␣` strips one blank). -/
theorem C5_amended_load_characterisation_witness :
    (['A', 'B'] ∈ bucket (readWords [['a', 'b', ' ']] 2) (maskWord ['A', 'B'] 3)) ∧
    (stripTrailing ['A', 'B', ' '] = ['A', 'B', ' '] ∨
      ∃ c, ['A', 'B', ' '] = stripTrailing ['A', 'B', ' '] ++ [c] ∧
        (c = '\r' ∨ c = ' ' ∨ c = '\t')) :=
  ⟨((C5_amended_load_characterisation.2.2 [['a', 'b', ' ']] 2 ['A', 'B']
      (by decide)).2 3 (by decide)),
    C5_amended_load_characterisation.2.1 ['A', 'B', ' ']⟩

-- ===== Commit-loop equivalence (sequential overwrite vs write-recurse-restore) =====

/-- The spec's write-recurse-restore discipline: every candidate is written on
a fresh copy of the parent grid; once a recursive call aborts, nothing further
runs. -/
def commitSpec (rec : Grid → SearchResult) (span : Span) (g : Grid) :
    List (List Char) → SearchResult
  | [] => ⟨[], false⟩
  | w :: rest =>
    let r := rec (g.SetString span w)
    if r.aborted then ⟨r.sols, true⟩
    else
      let r2 := commitSpec rec span g rest
      ⟨r.sols ++ r2.sols, r2.aborted⟩

theorem commitSeq_of_aborted (rec : Grid → SearchResult) (span : Span) :
    ∀ (cands : List (List Char)) (acc : Grid × SearchResult),
      acc.2.aborted = true → commitSeq rec span acc cands = acc
  | [], _, _ => rfl
  | w :: rest, acc, h => by
    unfold commitSeq
    rw [if_pos h]

theorem commitSeq_eq_commitSpec (rec : Grid → SearchResult) (span : Span) (g : Grid) :
    ∀ (cands : List (List Char)) (gc : Grid) (s0 : List Grid),
      (∀ w, gc.SetString span w = g.SetString span w) →
      (commitSeq rec span (gc, ⟨s0, false⟩) cands).2 =
        ⟨s0 ++ (commitSpec rec span g cands).sols,
          (commitSpec rec span g cands).aborted⟩
  | [], gc, s0, _ => by simp [commitSeq, commitSpec]
  | w :: rest, gc, s0, hgc => by
    unfold commitSeq commitSpec
    dsimp only
    rw [if_neg (by simp : ¬ (false = true)), hgc w]
    cases hr : (rec (g.SetString span w)).aborted
    · have hnext : ∀ w', (g.SetString span w).SetString span w' =
          g.SetString span w' := fun w' => Grid.SetString_SetString g span w w'
      rw [commitSeq_eq_commitSpec rec span g rest (g.SetString span w)
        (s0 ++ (rec (g.SetString span w)).sols) hnext]
      simp
    · rw [commitSeq_of_aborted rec span rest _ rfl]
      simp

/-- Running the commit loop from a fresh accumulator equals the
write-recurse-restore reference. -/
theorem commitSeq_run (rec : Grid → SearchResult) (span : Span) (g : Grid)
    (cands : List (List Char)) :
    (commitSeq rec span (g, ⟨[], false⟩) cands).2 = commitSpec rec span g cands := by
  rw [commitSeq_eq_commitSpec rec span g cands g [] fun w => rfl]
  simp

theorem commitSpec_congr (r1 r2 : Grid → SearchResult) (span : Span) (g : Grid) :
    ∀ cands : List (List Char),
      (∀ w ∈ cands, r1 (g.SetString span w) = r2 (g.SetString span w)) →
      commitSpec r1 span g cands = commitSpec r2 span g cands
  | [], _ => rfl
  | w :: rest, h => by
    unfold commitSpec
    rw [h w (List.mem_cons_self w rest),
      commitSpec_congr r1 r2 span g rest fun w' hw' => h w' (List.mem_cons_of_mem w hw')]

-- ===== Branch lemmas for `loopStep` =====

theorem loopStep_invalid (ws : List (List Char)) (rec : Grid → SearchResult) (g : Grid)
    (h : ((fullSlots g).all fun sl => IsWord ws sl.sPattern) = false) :
    loopStep ws rec g = ⟨[], false⟩ := by
  unfold loopStep
  dsimp only
  rw [if_pos (by simp [h])]

theorem loopStep_dup (ws : List (List Char)) (rec : Grid → SearchResult) (g : Grid)
    (h1 : ((fullSlots g).all fun sl => IsWord ws sl.sPattern) = true)
    (h2 : firstDup [] ((fullSlots g).map Slot.sPattern) = true) :
    loopStep ws rec g = ⟨[], false⟩ := by
  unfold loopStep
  dsimp only
  rw [if_neg (by simp [h1]), if_pos h2]

theorem loopStep_solution (ws : List (List Char)) (rec : Grid → SearchResult) (g : Grid)
    (h1 : ((fullSlots g).all fun sl => IsWord ws sl.sPattern) = true)
    (h2 : firstDup [] ((fullSlots g).map Slot.sPattern) = false)
    (h3 : partialSlots g = [])
    (h4 : (emptySlots g).length = 0) :
    loopStep ws rec g = ⟨[g], false⟩ := by
  unfold loopStep
  dsimp only
  rw [if_neg (by simp [h1]), if_neg (by simp [h2]), h3]
  dsimp only
  rw [if_pos h4]

theorem loopStep_abort (ws : List (List Char)) (rec : Grid → SearchResult) (g : Grid)
    (h1 : ((fullSlots g).all fun sl => IsWord ws sl.sPattern) = true)
    (h2 : firstDup [] ((fullSlots g).map Slot.sPattern) = false)
    (h3 : partialSlots g = [])
    (h4 : ¬ (emptySlots g).length = 0) :
    loopStep ws rec g = ⟨[], true⟩ := by
  unfold loopStep
  dsimp only
  rw [if_neg (by simp [h1]), if_neg (by simp [h2]), h3]
  dsimp only
  rw [if_neg h4]

theorem loopStep_nofind (ws : List (List Char)) (rec : Grid → SearchResult) (g : Grid)
    (sl : Slot) (tl : List Slot)
    (h1 : ((fullSlots g).all fun sl => IsWord ws sl.sPattern) = true)
    (h2 : firstDup [] ((fullSlots g).map Slot.sPattern) = false)
    (h3 : partialSlots g = sl :: tl)
    (h4 : FindWord ws sl.sPattern = none) :
    loopStep ws rec g = ⟨[], false⟩ := by
  unfold loopStep
  dsimp only
  rw [if_neg (by simp [h1]), if_neg (by simp [h2]), h3]
  dsimp only
  rw [h4]

theorem loopStep_commit (ws : List (List Char)) (rec : Grid → SearchResult) (g : Grid)
    (sl : Slot) (tl : List Slot) (cands : List (List Char))
    (h1 : ((fullSlots g).all fun sl => IsWord ws sl.sPattern) = true)
    (h2 : firstDup [] ((fullSlots g).map Slot.sPattern) = false)
    (h3 : partialSlots g = sl :: tl)
    (h4 : FindWord ws sl.sPattern = some cands) :
    loopStep ws rec g = (commitSeq rec sl.span (g, ⟨[], false⟩) cands).2 := by
  unfold loopStep
  dsimp only
  rw [if_neg (by simp [h1]), if_neg (by simp [h2]), h3]
  dsimp only
  rw [h4]

theorem FindWord_some {ws : List (List Char)} {p : List Char}
    {cands : List (List Char)} (h : FindWord ws p = some cands) :
    cands = bucket ws p := by
  unfold FindWord at h
  by_cases hb : bucket ws p = []
  · rw [if_pos hb] at h
    exact Option.noConfusion h
  · rw [if_neg hb] at h
    exact (Option.some.injEq _ _ ▸ h).symm

-- ===== Classification lemmas =====

theorem mem_partialSlots {g : Grid} {sl : Slot} :
    sl ∈ partialSlots g ↔
      ∃ sp ∈ g.vecSpans, (g.SpanAttr sp).IsPartial = true ∧
        sl = ⟨sp, g.GetString sp⟩ := by
  unfold partialSlots
  simp only [List.mem_map, List.mem_filter]
  constructor
  · rintro ⟨sp, ⟨hmem, hattr⟩, rfl⟩
    exact ⟨sp, hmem, hattr, rfl⟩
  · rintro ⟨sp, hmem, hattr, rfl⟩
    exact ⟨sp, ⟨hmem, hattr⟩, rfl⟩

theorem mem_emptySlots {g : Grid} {sl : Slot} :
    sl ∈ emptySlots g ↔
      ∃ sp ∈ g.vecSpans, (g.SpanAttr sp).IsEmpty = true ∧
        sl = ⟨sp, g.GetString sp⟩ := by
  unfold emptySlots
  simp only [List.mem_map, List.mem_filter]
  constructor
  · rintro ⟨sp, ⟨hmem, hattr⟩, rfl⟩
    exact ⟨sp, hmem, hattr, rfl⟩
  · rintro ⟨sp, hmem, hattr, rfl⟩
    exact ⟨sp, ⟨hmem, hattr⟩, rfl⟩

theorem mem_fullSlots {g : Grid} {sl : Slot} :
    sl ∈ fullSlots g ↔
      ∃ sp ∈ g.vecSpans, (g.SpanAttr sp).IsFull = true ∧
        sl = ⟨sp, g.GetString sp⟩ := by
  unfold fullSlots
  simp only [List.mem_map, List.mem_filter]
  constructor
  · rintro ⟨sp, ⟨hmem, hattr⟩, rfl⟩
    exact ⟨sp, hmem, hattr, rfl⟩
  · rintro ⟨sp, hmem, hattr, rfl⟩
    exact ⟨sp, ⟨hmem, hattr⟩, rfl⟩

/-- The duplicate scan succeeds (returns `false`) iff the strings are fresh
and pairwise distinct. -/
theorem firstDup_false_iff :
    ∀ (l seen : List (List Char)),
      firstDup seen l = false ↔ l.Nodup ∧ ∀ s ∈ l, s ∉ seen
  | [], seen => by simp [firstDup]
  | s :: rest, seen => by
    unfold firstDup
    by_cases hs : s ∈ seen
    · rw [if_pos hs]
      exact iff_of_false (by simp)
        fun h => h.2 s (List.mem_cons_self s rest) hs
    · rw [if_neg hs, firstDup_false_iff rest (seen ++ [s])]
      constructor
      · rintro ⟨hnd, hmem⟩
        refine ⟨List.nodup_cons.2 ⟨fun hsr => hmem s hsr (by simp), hnd⟩, ?_⟩
        intro t ht
        rcases List.mem_cons.1 ht with rfl | htr
        · exact hs
        · exact fun htseen => hmem t htr (by simp [htseen])
      · rintro ⟨hnd, hmem⟩
        rcases List.nodup_cons.1 hnd with ⟨hsnr, hndr⟩
        refine ⟨hndr, fun t ht htseen => ?_⟩
        rcases List.mem_append.1 htseen with hh | hh
        · exact hmem t (List.mem_cons_of_mem s ht) hh
        · have ht2 : t = s := by simpa using hh
          subst ht2
          exact hsnr ht

-- ===== Blank decrease along a commit =====

theorem partial_pattern_blank {g : Grid} {sp : Span}
    (h : (g.SpanAttr sp).IsPartial = true) :
    ∃ i, i < sp.nLen ∧ g.GetChar (sp.GetPoint i) = '.' := by
  unfold Attribute.IsPartial at h
  rw [Bool.and_eq_true] at h
  exact (hasBlanks_iff g sp).1 h.1

theorem letter_ne_dot {c : Char} (h : isUpperAZ c) : c ≠ '.' := by
  intro hdot
  rw [hdot] at h
  exact absurd h.1 (by decide)

theorem commit_word_facts {ws : List (List Char)}
    (hws : ∀ w ∈ ws, AllLetters w) {g : Grid} {sp : Span} {w : List Char}
    (hw : w ∈ bucket ws (g.GetString sp)) :
    AllLetters w ∧ w.length = sp.nLen :=
  ⟨hws w (mem_bucket_iff.1 hw).1,
    (bucket_mem_length hw).trans (g.GetString_length sp)⟩

theorem getD_ne_dot_of_letters {w : List Char} (hw : AllLetters w) {i : Nat}
    (hi : i < w.length) : w.getD i '?' ≠ '.' := by
  have hsome : w[i]? = some w[i] := List.getElem?_eq_some_iff.2 ⟨hi, rfl⟩
  rw [List.getD_eq_getElem?_getD, hsome]
  exact letter_ne_dot (hw _ (List.getElem?_mem hsome))

/-- Committing a dictionary candidate into a partial slot strictly decreases
the number of blank cells. -/
theorem countBlanks_candidate_lt {ws : List (List Char)}
    (hws : ∀ w ∈ ws, AllLetters w) {g : Grid} {sp : Span} {w : List Char}
    (hpart : (g.SpanAttr sp).IsPartial = true)
    (hw : w ∈ bucket ws (g.GetString sp)) :
    (g.SetString sp w).countBlanks < g.countBlanks := by
  rcases commit_word_facts hws hw with ⟨hlet, hlen⟩
  rcases partial_pattern_blank hpart with ⟨i, hi, hdot⟩
  refine Grid.countBlanks_writeRange_lt g sp w sp.nLen
    (fun j hj => getD_ne_dot_of_letters hlet (by omega)) ⟨i, hi, ?_⟩
  exact (GetChar_dot_iff g _).1 hdot

theorem mem_le_sum : ∀ (L : List Nat) (x : Nat), x ∈ L → x ≤ L.sum
  | [], _, h => absurd h (List.not_mem_nil _)
  | a :: as, x, h => by
    rcases List.mem_cons.1 h with rfl | hx
    · simp
    · have := mem_le_sum as x hx
      simp only [List.sum_cons]
      omega

theorem countBlanks_pos {g : Grid} {p : Point}
    (h : g.getCell p = some '.') : 0 < g.countBlanks := by
  unfold Grid.getCell at h
  rcases ho : g.vecLines[p.nRow]? with _ | row
  · rw [ho] at h; simp at h
  · rw [ho, Option.some_bind] at h
    have hrowmem : row ∈ g.vecLines := List.getElem?_mem ho
    have hdot : '.' ∈ row := List.getElem?_mem h
    have hcount : 0 < row.countP fun c => decide (c = '.') := by
      rw [List.countP_pos_iff]
      exact ⟨'.', hdot, by simp⟩
    have hmem2 : (row.countP fun c => decide (c = '.')) ∈
        g.vecLines.map fun row => row.countP fun c => decide (c = '.') :=
      List.mem_map.2 ⟨row, hrowmem, rfl⟩
    exact Nat.lt_of_lt_of_le hcount (mem_le_sum _ _ hmem2)

/-- Fuel stabilisation: any two fuels above the blank count give the same
search result. -/
theorem loopFuel_congr (ws : List (List Char))
    (hws : ∀ w ∈ ws, AllLetters w) :
    ∀ (b : Nat) (g : Grid) (f1 f2 : Nat), g.countBlanks ≤ b → b < f1 → b < f2 →
      loopFuel ws f1 g = loopFuel ws f2 g := by
  intro b
  induction b using Nat.strong_induction_on with
  | _ b ih =>
    intro g f1 f2 hgb h1 h2
    obtain ⟨n1, rfl⟩ : ∃ n1, f1 = n1 + 1 := ⟨f1 - 1, by omega⟩
    obtain ⟨n2, rfl⟩ : ∃ n2, f2 = n2 + 1 := ⟨f2 - 1, by omega⟩
    show loopStep ws (loopFuel ws n1) g = loopStep ws (loopFuel ws n2) g
    cases hall : (fullSlots g).all fun sl => IsWord ws sl.sPattern
    · rw [loopStep_invalid ws _ g hall, loopStep_invalid ws _ g hall]
    · cases hdup : firstDup [] ((fullSlots g).map Slot.sPattern)
      case true =>
        rw [loopStep_dup ws _ g hall hdup, loopStep_dup ws _ g hall hdup]
      case false =>
        cases hps : partialSlots g with
        | nil =>
          by_cases hes : (emptySlots g).length = 0
          · rw [loopStep_solution ws _ g hall hdup hps hes,
              loopStep_solution ws _ g hall hdup hps hes]
          · rw [loopStep_abort ws _ g hall hdup hps hes,
              loopStep_abort ws _ g hall hdup hps hes]
        | cons sl tl =>
          cases hfw : FindWord ws sl.sPattern with
          | none =>
            rw [loopStep_nofind ws _ g sl tl hall hdup hps hfw,
              loopStep_nofind ws _ g sl tl hall hdup hps hfw]
          | some cands =>
            rw [loopStep_commit ws _ g sl tl cands hall hdup hps hfw,
              loopStep_commit ws _ g sl tl cands hall hdup hps hfw,
              commitSeq_run, commitSeq_run]
            apply commitSpec_congr
            intro w hw
            rcases mem_partialSlots.1
                (hps ▸ List.mem_cons_self sl tl) with ⟨sp, hspmem, hpart, hsleq⟩
            have hspan : sl.span = sp := by rw [hsleq]
            have hpat : sl.sPattern = g.GetString sp := by rw [hsleq]
            rw [hspan]
            have hwb : w ∈ bucket ws (g.GetString sp) := by
              rw [← hpat, ← FindWord_some hfw]
              exact hw
            have hlt : (g.SetString sp w).countBlanks < g.countBlanks :=
              countBlanks_candidate_lt hws hpart hwb
            have hbpos : 1 ≤ b := by
              rcases partial_pattern_blank hpart with ⟨i, hi, hdot⟩
              have := countBlanks_pos ((GetChar_dot_iff g _).1 hdot)
              omega
            exact ih (b - 1) (by omega) _ n1 n2 (by omega) (by omega) (by omega)

-- ===== Grid well-formedness =====

/-- A grid cell that exists and holds a blank or a letter. -/
def cellOkB (g : Grid) (p : Point) : Bool :=
  match g.getCell p with
  | some c => decide (c = '.') || decide (isUpperAZ c)
  | none => false

/-- The well-formedness the engine relies on (established by grid loading plus
span derivation on valid inputs): every span is non-trivial and covers
existing cells that are blanks or letters — never blocks. -/
def GridOk (g : Grid) : Prop :=
  ∀ sp ∈ g.vecSpans,
    1 ≤ sp.nLen ∧ ∀ i, i < sp.nLen → cellOkB g (sp.GetPoint i) = true

instance (g : Grid) : Decidable (GridOk g) := by
  unfold GridOk; infer_instance

theorem cellOkB_iff {g : Grid} {p : Point} :
    cellOkB g p = true ↔
      ∃ c, g.getCell p = some c ∧ (c = '.' ∨ isUpperAZ c) := by
  unfold cellOkB
  cases h : g.getCell p <;> simp [h]

theorem GetChar_of_getCell {g : Grid} {p : Point} {c : Char}
    (h : g.getCell p = some c) : g.GetChar p = c := by
  unfold Grid.GetChar
  rw [h]
  rfl

/-- Writing an all-letters word of the span's length preserves well-formedness. -/
theorem GridOk_SetString {g : Grid} {sp : Span} {w : List Char}
    (hok : GridOk g) (hlet : AllLetters w) (hlen : w.length = sp.nLen) :
    GridOk (g.SetString sp w) := by
  intro sp' hsp'
  rw [Grid.vecSpans_SetString] at hsp'
  refine ⟨(hok sp' hsp').1, fun i hi => ?_⟩
  have hcell := (hok sp' hsp').2 i hi
  rcases cellOkB_iff.1 hcell with ⟨c, hc, _⟩
  by_cases hq : ∃ j, j < sp.nLen ∧ sp.GetPoint j = sp'.GetPoint i
  · rcases hq with ⟨j, hj, hjq⟩
    rw [cellOkB_iff]
    have hval := Grid.getCell_writeRange_at g sp w sp.nLen j hj
    rw [hjq] at hval
    have hletter : isUpperAZ (w.getD j '?') := by
      have hjw : j < w.length := by omega
      have hsome : w[j]? = some w[j] := List.getElem?_eq_some_iff.2 ⟨hjw, rfl⟩
      rw [List.getD_eq_getElem?_getD, hsome]
      exact hlet _ (List.getElem?_mem hsome)
    refine ⟨w.getD j '?', ?_, Or.inr hletter⟩
    show (g.SetString sp w).getCell (sp'.GetPoint i) = _
    unfold Grid.SetString
    rw [hval, hc]
    rfl
  · push_neg at hq
    rw [cellOkB_iff]
    have hunch : (g.SetString sp w).getCell (sp'.GetPoint i) =
        g.getCell (sp'.GetPoint i) := by
      unfold Grid.SetString
      exact Grid.getCell_writeRange_out g sp w sp.nLen _ fun j hj => hq j hj
    rcases cellOkB_iff.1 hcell with ⟨c', hc', hgood⟩
    exact ⟨c', by rw [hunch, hc'], hgood⟩

/-- At a node with no partial and no empty slots, a well-formed grid has every
span full. -/
theorem all_spans_full {g : Grid} (hok : GridOk g) (hps : partialSlots g = [])
    (hes : (emptySlots g).length = 0) :
    ∀ sp ∈ g.vecSpans, (g.SpanAttr sp).IsFull = true := by
  intro sp hsp
  rcases hok sp hsp with ⟨hlen, hcells⟩
  have hempty : emptySlots g = [] := List.length_eq_zero.1 hes
  cases hb : (g.SpanAttr sp).bHasBlanks
  · cases hl : (g.SpanAttr sp).bHasLetters
    · exfalso
      rcases cellOkB_iff.1 (hcells 0 (by omega)) with ⟨c, hc, hgood⟩
      have hchar : g.GetChar (sp.GetPoint 0) = c := GetChar_of_getCell hc
      rcases hgood with rfl | hletter
      · have : (g.SpanAttr sp).bHasBlanks = true :=
          (hasBlanks_iff g sp).2 ⟨0, by omega, hchar⟩
        rw [hb] at this
        exact Bool.noConfusion this
      · have : (g.SpanAttr sp).bHasLetters = true :=
          (hasLetters_iff g sp).2 ⟨0, by omega, hchar ▸ hletter⟩
        rw [hl] at this
        exact Bool.noConfusion this
    · unfold Attribute.IsFull
      rw [hb, hl]
      rfl
  · exfalso
    cases hl : (g.SpanAttr sp).bHasLetters
    · have hmem : (⟨sp, g.GetString sp⟩ : Slot) ∈ emptySlots g :=
        mem_emptySlots.2 ⟨sp, hsp, by unfold Attribute.IsEmpty; rw [hb, hl]; rfl, rfl⟩
      rw [hempty] at hmem
      exact absurd hmem (List.not_mem_nil _)
    · have hmem : (⟨sp, g.GetString sp⟩ : Slot) ∈ partialSlots g :=
        mem_partialSlots.2 ⟨sp, hsp, by unfold Attribute.IsPartial; rw [hb, hl]; rfl, rfl⟩
      rw [hps] at hmem
      exact absurd hmem (List.not_mem_nil _)

/-- The string of a full span of a well-formed grid is all letters. -/
theorem full_span_letters {g : Grid} {sp : Span}
    (hcells : ∀ i, i < sp.nLen → cellOkB g (sp.GetPoint i) = true)
    (hfull : (g.SpanAttr sp).IsFull = true) :
    AllLetters (g.GetString sp) := by
  intro c hc
  unfold Grid.GetString at hc
  rcases List.mem_map.1 hc with ⟨i, hi, rfl⟩
  rw [List.mem_range] at hi
  rcases cellOkB_iff.1 (hcells i hi) with ⟨c0, hc0, hgood⟩
  have hchar : g.GetChar (sp.GetPoint i) = c0 := GetChar_of_getCell hc0
  rcases hgood with rfl | hletter
  · exfalso
    have hblank : (g.SpanAttr sp).bHasBlanks = true :=
      (hasBlanks_iff g sp).2 ⟨i, hi, hchar⟩
    unfold Attribute.IsFull at hfull
    rw [hblank] at hfull
    exact Bool.noConfusion (Bool.and_eq_true _ _ ▸ hfull).1
  · rw [hchar]
    exact hletter

/-- When every span is full, the full-slot list is the whole span list. -/
theorem fullSlots_eq {g : Grid}
    (h : ∀ sp ∈ g.vecSpans, (g.SpanAttr sp).IsFull = true) :
    fullSlots g = g.vecSpans.map fun sp => ⟨sp, g.GetString sp⟩ := by
  unfold fullSlots
  rw [List.filter_eq_self.2 h]

/-- Every emitted solution of the commit loop comes from some candidate
written on the parent grid. -/
theorem commitSpec_sols {rec : Grid → SearchResult} {span : Span} {g : Grid} :
    ∀ (cands : List (List Char)) (g' : Grid),
      g' ∈ (commitSpec rec span g cands).sols →
      ∃ w ∈ cands, g' ∈ (rec (g.SetString span w)).sols
  | [], g', h => absurd h (List.not_mem_nil g')
  | w :: rest, g', h => by
    unfold commitSpec at h
    dsimp only at h
    by_cases hr : (rec (g.SetString span w)).aborted = true
    · rw [if_pos hr] at h
      exact ⟨w, List.mem_cons_self w rest, h⟩
    · rw [if_neg hr] at h
      rcases List.mem_append.1 h with h1 | h1
      · exact ⟨w, List.mem_cons_self w rest, h1⟩
      · rcases commitSpec_sols rest g' h1 with ⟨w', hw', hg'⟩
        exact ⟨w', List.mem_cons_of_mem w hw', hg'⟩

/-- At an emitting node, every span's string is an all-letters dictionary word
and the spans' strings are pairwise distinct. -/
theorem solution_node_ok {ws : List (List Char)} {g : Grid} (hok : GridOk g)
    (hall : ((fullSlots g).all fun sl => IsWord ws sl.sPattern) = true)
    (hdup : firstDup [] ((fullSlots g).map Slot.sPattern) = false)
    (hps : partialSlots g = []) (hes : (emptySlots g).length = 0) :
    (∀ sp ∈ g.vecSpans, AllLetters (g.GetString sp) ∧ g.GetString sp ∈ ws) ∧
    (g.vecSpans.map fun sp => g.GetString sp).Nodup := by
  have hfull := all_spans_full hok hps hes
  constructor
  · intro sp hsp
    have hletters : AllLetters (g.GetString sp) :=
      full_span_letters (hok sp hsp).2 (hfull sp hsp)
    refine ⟨hletters, ?_⟩
    have hslot : (⟨sp, g.GetString sp⟩ : Slot) ∈ fullSlots g :=
      mem_fullSlots.2 ⟨sp, hsp, hfull sp hsp, rfl⟩
    have hword : IsWord ws (g.GetString sp) = true :=
      List.all_eq_true.1 hall _ hslot
    exact (isWord_allLetters_iff hletters).1 hword
  · have hnodup := ((firstDup_false_iff _ []).1 hdup).1
    rw [fullSlots_eq hfull, List.map_map] at hnodup
    exact hnodup

/-- Soundness of emission: on a well-formed grid with an all-letters
dictionary, every emitted grid has all spans filled with distinct dictionary
words. -/
theorem loop_sols_ok (ws : List (List Char)) (hws : ∀ w ∈ ws, AllLetters w) :
    ∀ (f : Nat) (g : Grid), GridOk g →
      ∀ g' ∈ (loopFuel ws f g).sols,
        (∀ sp ∈ g'.vecSpans,
          AllLetters (g'.GetString sp) ∧ g'.GetString sp ∈ ws) ∧
        (g'.vecSpans.map fun sp => g'.GetString sp).Nodup := by
  intro f
  induction f with
  | zero => intro g _ g' h; exact absurd h (List.not_mem_nil _)
  | succ n ih =>
    intro g hok g' hg'
    rw [show loopFuel ws (n + 1) g = loopStep ws (loopFuel ws n) g from rfl] at hg'
    cases hall : (fullSlots g).all fun sl => IsWord ws sl.sPattern
    · rw [loopStep_invalid ws _ g hall] at hg'
      exact absurd hg' (List.not_mem_nil _)
    · cases hdup : firstDup [] ((fullSlots g).map Slot.sPattern)
      case true =>
        rw [loopStep_dup ws _ g hall hdup] at hg'
        exact absurd hg' (List.not_mem_nil _)
      case false =>
        cases hps : partialSlots g with
        | nil =>
          by_cases hes : (emptySlots g).length = 0
          · rw [loopStep_solution ws _ g hall hdup hps hes] at hg'
            have hg : g' = g := by simpa using hg'
            subst hg
            exact solution_node_ok hok hall hdup hps hes
          · rw [loopStep_abort ws _ g hall hdup hps hes] at hg'
            exact absurd hg' (List.not_mem_nil _)
        | cons sl tl =>
          cases hfw : FindWord ws sl.sPattern with
          | none =>
            rw [loopStep_nofind ws _ g sl tl hall hdup hps hfw] at hg'
            exact absurd hg' (List.not_mem_nil _)
          | some cands =>
            rw [loopStep_commit ws _ g sl tl cands hall hdup hps hfw,
              commitSeq_run] at hg'
            rcases commitSpec_sols cands g' hg' with ⟨w, hwc, hg2⟩
            have hslmem : sl ∈ partialSlots g := by
              rw [hps]; exact List.mem_cons_self sl tl
            rcases mem_partialSlots.1 hslmem with ⟨sp, hspmem, hpart, hsleq⟩
            have hspan : sl.span = sp := by rw [hsleq]
            have hpat : sl.sPattern = g.GetString sp := by rw [hsleq]
            rw [hspan] at hg2
            have hwb : w ∈ bucket ws (g.GetString sp) := by
              rw [← hpat, ← FindWord_some hfw]
              exact hwc
            rcases commit_word_facts hws hwb with ⟨hlet, hlen⟩
            exact ih (g.SetString sp w) (GridOk_SetString hok hlet hlen) g' hg2

-- ===== Frame preservation (blocks and pre-supplied letters) =====

theorem getD_letter {w : List Char} (hw : AllLetters w) {j : Nat}
    (hj : j < w.length) : isUpperAZ (w.getD j '?') := by
  have hsome : w[j]? = some w[j] := List.getElem?_eq_some_iff.2 ⟨hj, rfl⟩
  rw [List.getD_eq_getElem?_getD, hsome]
  exact hw _ (List.getElem?_mem hsome)

theorem okChar_ne_hash {c : Char} (h : c = '.' ∨ isUpperAZ c) : c ≠ '#' := by
  rcases h with rfl | hl
  · decide
  · intro hh
    rw [hh] at hl
    exact absurd hl.1 (by decide)

/-- Frame relation between grids: blocks at exactly the same cells with the
same `'#'`, and every letter cell preserved with its value. -/
def PreservesFrame (g g' : Grid) : Prop :=
  (∀ p : Point, g.getCell p = some '#' ↔ g'.getCell p = some '#') ∧
  (∀ (p : Point) (c : Char), g.getCell p = some c → isUpperAZ c →
    g'.getCell p = some c)

theorem PreservesFrame_refl (g : Grid) : PreservesFrame g g :=
  ⟨fun _ => Iff.rfl, fun _ _ h _ => h⟩

theorem PreservesFrame_trans {g1 g2 g3 : Grid} (h12 : PreservesFrame g1 g2)
    (h23 : PreservesFrame g2 g3) : PreservesFrame g1 g3 :=
  ⟨fun p => (h12.1 p).trans (h23.1 p),
    fun p c hc hl => h23.2 p c (h12.2 p c hc hl) hl⟩

/-- Committing a bucket candidate for a span's current pattern preserves the
frame: blocks are never written (spans cover no blocks) and letters are
rewritten with their own value (the candidate agrees with the pattern). -/
theorem PreservesFrame_commit {ws : List (List Char)}
    (hws : ∀ w ∈ ws, AllLetters w) {g : Grid} {sp : Span} {w : List Char}
    (hok : GridOk g) (hsp : sp ∈ g.vecSpans)
    (hw : w ∈ bucket ws (g.GetString sp)) :
    PreservesFrame g (g.SetString sp w) := by
  rcases commit_word_facts hws hw with ⟨hlet, hlen⟩
  rcases hok sp hsp with ⟨_, hcells⟩
  have hval : ∀ j, j < sp.nLen →
      (g.SetString sp w).getCell (sp.GetPoint j) =
        (g.getCell (sp.GetPoint j)).map fun _ => w.getD j '?' := by
    intro j hj
    unfold Grid.SetString
    exact Grid.getCell_writeRange_at g sp w sp.nLen j hj
  have hunch : ∀ p : Point, (∀ j, j < sp.nLen → sp.GetPoint j ≠ p) →
      (g.SetString sp w).getCell p = g.getCell p := by
    intro p hp
    unfold Grid.SetString
    exact Grid.getCell_writeRange_out g sp w sp.nLen p hp
  constructor
  · intro p
    by_cases hq : ∃ j, j < sp.nLen ∧ sp.GetPoint j = p
    · rcases hq with ⟨j, hj, rfl⟩
      rcases cellOkB_iff.1 (hcells j hj) with ⟨c0, hc0, hgood⟩
      constructor
      · intro hhash
        exfalso
        rw [hc0] at hhash
        exact okChar_ne_hash hgood (Option.some.injEq _ _ ▸ hhash)
      · intro hhash
        exfalso
        rw [hval j hj, hc0] at hhash
        simp only [Option.map_some', Option.some.injEq] at hhash
        have hjw : j < w.length := by omega
        exact okChar_ne_hash (Or.inr (getD_letter hlet hjw)) hhash
    · push_neg at hq
      rw [hunch p hq]
  · intro p c hc hcl
    by_cases hq : ∃ j, j < sp.nLen ∧ sp.GetPoint j = p
    · rcases hq with ⟨j, hj, rfl⟩
      have hchar : g.GetChar (sp.GetPoint j) = c := GetChar_of_getCell hc
      have hpat : (g.GetString sp)[j]? = some c := by
        rw [Grid.GetString_getElem g sp hj, hchar]
      have hwj : w[j]? = some c := bucket_mem_agree hw hpat (letter_ne_dot hcl)
      have hgd : w.getD j '?' = c := by
        rw [List.getD_eq_getElem?_getD, hwj]
        rfl
      rw [hval j hj, hc]
      simp only [Option.map_some']
      exact congrArg some hgd
    · push_neg at hq
      rw [hunch _ hq]
      exact hc

/-- Every emitted solution preserves the input's blocks and letters. -/
theorem loop_sols_frame (ws : List (List Char)) (hws : ∀ w ∈ ws, AllLetters w) :
    ∀ (f : Nat) (g : Grid), GridOk g →
      ∀ g' ∈ (loopFuel ws f g).sols, PreservesFrame g g' := by
  intro f
  induction f with
  | zero => intro g _ g' h; exact absurd h (List.not_mem_nil _)
  | succ n ih =>
    intro g hok g' hg'
    rw [show loopFuel ws (n + 1) g = loopStep ws (loopFuel ws n) g from rfl] at hg'
    cases hall : (fullSlots g).all fun sl => IsWord ws sl.sPattern
    · rw [loopStep_invalid ws _ g hall] at hg'
      exact absurd hg' (List.not_mem_nil _)
    · cases hdup : firstDup [] ((fullSlots g).map Slot.sPattern)
      case true =>
        rw [loopStep_dup ws _ g hall hdup] at hg'
        exact absurd hg' (List.not_mem_nil _)
      case false =>
        cases hps : partialSlots g with
        | nil =>
          by_cases hes : (emptySlots g).length = 0
          · rw [loopStep_solution ws _ g hall hdup hps hes] at hg'
            have hg : g' = g := by simpa using hg'
            subst hg
            exact PreservesFrame_refl g'
          · rw [loopStep_abort ws _ g hall hdup hps hes] at hg'
            exact absurd hg' (List.not_mem_nil _)
        | cons sl tl =>
          cases hfw : FindWord ws sl.sPattern with
          | none =>
            rw [loopStep_nofind ws _ g sl tl hall hdup hps hfw] at hg'
            exact absurd hg' (List.not_mem_nil _)
          | some cands =>
            rw [loopStep_commit ws _ g sl tl cands hall hdup hps hfw,
              commitSeq_run] at hg'
            rcases commitSpec_sols cands g' hg' with ⟨w, hwc, hg2⟩
            have hslmem : sl ∈ partialSlots g := by
              rw [hps]; exact List.mem_cons_self sl tl
            rcases mem_partialSlots.1 hslmem with ⟨sp, hspmem, hpart, hsleq⟩
            have hspan : sl.span = sp := by rw [hsleq]
            have hpat : sl.sPattern = g.GetString sp := by rw [hsleq]
            rw [hspan] at hg2
            have hwb : w ∈ bucket ws (g.GetString sp) := by
              rw [← hpat, ← FindWord_some hfw]
              exact hwc
            rcases commit_word_facts hws hwb with ⟨hlet, hlen⟩
            exact PreservesFrame_trans
              (PreservesFrame_commit hws hok hspmem hwb)
              (ih (g.SetString sp w) (GridOk_SetString hok hlet hlen) g' hg2)

/-- A 1×3 demo grid with a seed letter and a block (`A.#`), loaded with its
spans; the search fills it to `AB#`. -/
def gridBlockDemo : Grid :=
  (Grid.mk [] (loadLines [['A', '.', '#']]) []).FillSpans

/-- The dictionary `{AB, A, B}` loaded against that grid's maximum size. -/
def libBlockDemo : List (List Char) :=
  readWords [['A', 'B'], ['A'], ['B']] gridBlockDemo.MaxSize

/-- The unique solution of the demo grid. -/
def solBlockDemo : Grid := { gridBlockDemo with vecLines := [['A', 'B', '#']] }

/-- The loaded demo grid written out: one horizontal span over the two
non-block cells and two vertical spans of length 1 (evaluated once here;
later facts rewrite with this equation instead of re-running `FillSpans`). -/
theorem gridBlockDemo_eq :
    gridBlockDemo = Grid.mk [] [['A', '.', '#']]
      [Span.mk (Point.mk 0 0) 2 false, Span.mk (Point.mk 0 0) 1 true,
       Span.mk (Point.mk 0 1) 1 true] := rfl

/-- All three words survive the dictionary load. -/
theorem libBlockDemo_eq : libBlockDemo = [['A', 'B'], ['A'], ['B']] := rfl

/-- The solution grid, written out with the same spans. -/
theorem solBlockDemo_eq :
    solBlockDemo = Grid.mk [] [['A', 'B', '#']]
      [Span.mk (Point.mk 0 0) 2 false, Span.mk (Point.mk 0 0) 1 true,
       Span.mk (Point.mk 0 1) 1 true] := by
  show { gridBlockDemo with vecLines := [['A', 'B', '#']] } = _
  rw [gridBlockDemo_eq]

/-- The demo search (fuel 2 suffices: one blank) emits exactly the solution. -/
theorem loopBlockDemo_eq :
    loopFuel libBlockDemo 2 gridBlockDemo = ⟨[solBlockDemo], false⟩ := by
  rw [gridBlockDemo_eq, libBlockDemo_eq, solBlockDemo_eq]
  decide

/-- The solution is among the demo search's emitted grids. -/
theorem solBlockDemo_mem :
    solBlockDemo ∈ (loopFuel libBlockDemo 2 gridBlockDemo).sols := by
  rw [loopBlockDemo_eq]
  exact List.mem_singleton.mpr rfl

/-- Every demo dictionary word is all-letters. -/
theorem libBlockDemo_letters : ∀ w ∈ libBlockDemo, AllLetters w := by
  rw [libBlockDemo_eq]
  decide

/-- The demo grid is well-formed. -/
theorem gridBlockDemo_ok : GridOk gridBlockDemo := by
  rw [gridBlockDemo_eq]
  decide

/-- C1: every solution grid the engine emits (a node with no partial and no
empty slots left) has every span's string an all-letters dictionary word, and
all spans' strings pairwise distinct — a grid failing the validity or the
uniqueness check is never emitted. -/
theorem C1_emitted_solutions_valid (ws : List (List Char)) (f : Nat) (g : Grid)
    (hws : ∀ w ∈ ws, AllLetters w) (hok : GridOk g) :
    ∀ g' ∈ (loopFuel ws f g).sols,
      (∀ sp ∈ g'.vecSpans,
        AllLetters (g'.GetString sp) ∧ g'.GetString sp ∈ ws) ∧
      (g'.vecSpans.map fun sp => g'.GetString sp).Nodup :=
  loop_sols_ok ws hws f g hok

/-- C1 witness: the demo search's emitted grid `AB#` has its first span filled
with the dictionary word `AB` and all three span strings distinct. -/
theorem C1_emitted_solutions_valid_witness :
    (AllLetters (solBlockDemo.GetString (Span.mk (Point.mk 0 0) 2 false)) ∧
      solBlockDemo.GetString (Span.mk (Point.mk 0 0) 2 false) ∈ libBlockDemo) ∧
    (solBlockDemo.vecSpans.map fun sp => solBlockDemo.GetString sp).Nodup := by
  have h := C1_emitted_solutions_valid libBlockDemo 2 gridBlockDemo
    libBlockDemo_letters gridBlockDemo_ok solBlockDemo solBlockDemo_mem
  exact ⟨h.1 (Span.mk (Point.mk 0 0) 2 false) (by rw [solBlockDemo_eq]; decide), h.2⟩

/-- C4: every emitted solution has the input grid's block cells at exactly the
same positions with the same `'#'`, and every pre-supplied letter unchanged at
its position (the recursion passes grids by value, so the engine's own grid is
the unchanged `g` here). -/
theorem C4_blocks_letters_preserved (ws : List (List Char)) (f : Nat) (g : Grid)
    (hws : ∀ w ∈ ws, AllLetters w) (hok : GridOk g) :
    ∀ g' ∈ (loopFuel ws f g).sols,
      (∀ p : Point, g.getCell p = some '#' ↔ g'.getCell p = some '#') ∧
      (∀ (p : Point) (c : Char), g.getCell p = some c → isUpperAZ c →
        g'.getCell p = some c) :=
  loop_sols_frame ws hws f g hok

/-- C4 witness: the demo solution keeps the block at (0,2) and the seed letter
`A` at (0,0). -/
theorem C4_blocks_letters_preserved_witness :
    solBlockDemo.getCell (Point.mk 0 2) = some '#' ∧
    solBlockDemo.getCell (Point.mk 0 0) = some 'A' := by
  have h := C4_blocks_letters_preserved libBlockDemo 2 gridBlockDemo
    libBlockDemo_letters gridBlockDemo_ok solBlockDemo solBlockDemo_mem
  exact ⟨(h.1 (Point.mk 0 2)).1 (by rw [gridBlockDemo_eq]; rfl),
    h.2 (Point.mk 0 0) 'A' (by rw [gridBlockDemo_eq]; rfl) (by decide)⟩

/-- C8: with a dictionary of genuine (all-letters) words, the search
terminates: every committed candidate matches a partial slot's pattern and
fills at least one blank, so the blank count strictly decreases on every
recursive call, and any fuel beyond the initial blank count reproduces
`Engine::Search` exactly. -/
theorem C8_search_terminates (ws : List (List Char))
    (hws : ∀ w ∈ ws, AllLetters w) :
    (∀ (g : Grid) (sl : Slot) (w : List Char), sl ∈ partialSlots g →
      w ∈ bucket ws sl.sPattern →
      (g.SetString sl.span w).countBlanks < g.countBlanks) ∧
    (∀ (g : Grid) (f : Nat), g.countBlanks < f →
      loopFuel ws f g = Search ws g) := by
  constructor
  · intro g sl w hsl hw
    rcases mem_partialSlots.1 hsl with ⟨sp, _, hpart, hsleq⟩
    have hspan : sl.span = sp := by rw [hsleq]
    have hpat : sl.sPattern = g.GetString sp := by rw [hsleq]
    rw [hspan]
    exact countBlanks_candidate_lt hws hpart (hpat ▸ hw)
  · intro g f hf
    exact loopFuel_congr ws hws g.countBlanks g f (g.countBlanks + 1)
      (Nat.le_refl _) hf (Nat.lt_succ_self _)

/-- C8 witness: on the demo grid, committing `AB` into the partial slot `A.`
drops the blank count, and fuel 5 already gives the exact search result. -/
theorem C8_search_terminates_witness :
    ((gridBlockDemo.SetString (Span.mk (Point.mk 0 0) 2 false) ['A', 'B']).countBlanks <
      gridBlockDemo.countBlanks) ∧
    loopFuel libBlockDemo 5 gridBlockDemo = Search libBlockDemo gridBlockDemo := by
  have h := C8_search_terminates libBlockDemo libBlockDemo_letters
  exact ⟨h.1 gridBlockDemo (Slot.mk (Span.mk (Point.mk 0 0) 2 false) ['A', '.'])
      ['A', 'B'] (by rw [gridBlockDemo_eq]; decide) (by rw [libBlockDemo_eq]; decide),
    h.2 gridBlockDemo 5 (by rw [gridBlockDemo_eq]; decide)⟩

/-- C9: `CommitSlot` never restores the grid between candidates, but since a
later candidate fully overwrites an earlier one (every bucket word has the
key's length), the sequential-overwrite loop is observably equivalent to the
write-recurse-restore discipline: each recursive call receives exactly the
parent grid with one candidate written. -/
theorem C9_commit_overwrite_refines_spec :
    (∀ (ws : List (List Char)) (p w : List Char), w ∈ bucket ws p →
      w.length = p.length) ∧
    (∀ (rec : Grid → SearchResult) (span : Span) (g : Grid)
      (cands : List (List Char)),
      (commitSeq rec span (g, ⟨[], false⟩) cands).2 = commitSpec rec span g cands) := by
  refine ⟨fun ws p w h => bucket_mem_length h, fun rec span g cands => ?_⟩
  rw [commitSeq_eq_commitSpec rec span g cands g [] fun w => rfl]
  simp

/-- C9 witness: the length fact on a concrete bucket, and the equivalence on a
concrete one-candidate commit. -/
theorem C9_commit_overwrite_refines_spec_witness :
    (['A', 'B'] : List Char).length = (['A', '.'] : List Char).length ∧
    (commitSeq (fun _ => ⟨[], false⟩) (Span.mk (Point.mk 0 0) 2 false)
        (Grid.mk [] [['.', '.']] [], ⟨[], false⟩) [['A', 'B']]).2 =
      commitSpec (fun _ => ⟨[], false⟩) (Span.mk (Point.mk 0 0) 2 false)
        (Grid.mk [] [['.', '.']] []) [['A', 'B']] :=
  ⟨C9_commit_overwrite_refines_spec.1 [['A', 'B']] ['A', '.'] ['A', 'B'] (by decide),
    C9_commit_overwrite_refines_spec.2 (fun _ => ⟨[], false⟩) _ _ _⟩

-- ===== Span derivation: linear-scan arithmetic =====

/-- The linear scan index of a point (row-major horizontally, column-major
vertically). -/
def linIdx (g : Grid) (vert : Bool) (p : Point) : Nat :=
  if vert then p.nCol * g.rows + p.nRow else p.nRow * g.cols + p.nCol

theorem linIdx_pointAt (g : Grid) (vert : Bool) (k : Nat) :
    linIdx g vert (pointAt g vert k) = k := by
  unfold linIdx pointAt
  cases vert <;> simp only [if_true, if_false, Bool.false_eq_true, Bool.true_eq_false]
  · rw [Nat.mul_comm]
    exact Nat.div_add_mod k g.cols
  · rw [Nat.mul_comm]
    exact Nat.div_add_mod k g.rows

theorem dirLen_pos {g : Grid} {vert : Bool} {k : Nat}
    (h : k < totalCells g vert) : 0 < dirLen g vert := by
  unfold totalCells at h
  by_contra hz
  have h0 : dirLen g vert = 0 := by omega
  rw [h0, Nat.zero_mul] at h
  exact Nat.not_lt_zero k h

theorem mod_succ_of_ne {L k : Nat} (hL : 0 < L) (h : (k + 1) % L ≠ 0) :
    (k + 1) % L = k % L + 1 := by
  rcases Nat.lt_or_ge 1 L with hL2 | hL1
  · have h1 : (k + 1) % L = (k % L + 1) % L := by
      conv_lhs => rw [Nat.add_mod]
      rw [Nat.mod_eq_of_lt hL2]
    rcases Nat.lt_or_ge (k % L + 1) L with hlt | hge
    · rw [h1, Nat.mod_eq_of_lt hlt]
    · have hm : k % L < L := Nat.mod_lt k hL
      have heq : k % L + 1 = L := by omega
      rw [h1, heq, Nat.mod_self] at h
      exact absurd rfl h
  · have hone : L = 1 := by omega
    rw [hone, Nat.mod_one] at h
    exact absurd rfl h

/-- Characterisation of the inner block-skipping loop of `FillSpans`. -/
theorem skipBF_spec (g : Grid) (vert : Bool) :
    ∀ (fuel k : Nat), totalCells g vert - k < fuel →
      k ≤ skipBF g vert fuel k ∧
      (∀ j, k ≤ j → j < skipBF g vert fuel k →
        j < totalCells g vert ∧ blockAt g vert j) ∧
      ¬ (skipBF g vert fuel k < totalCells g vert ∧
        blockAt g vert (skipBF g vert fuel k))
  | 0, k, h => absurd h (by omega)
  | fuel + 1, k, h => by
    unfold skipBF
    by_cases hc : k < totalCells g vert ∧ blockAt g vert k
    · rw [if_pos hc]
      have hrec := skipBF_spec g vert fuel (k + 1) (by omega)
      refine ⟨by omega, fun j hj1 hj2 => ?_, hrec.2.2⟩
      rcases Nat.eq_or_lt_of_le hj1 with rfl | hj3
      · exact hc
      · exact hrec.2.1 j hj3 hj2
    · rw [if_neg hc]
      exact ⟨Nat.le_refl k, fun j hj1 hj2 => absurd (Nat.lt_of_le_of_lt hj1 hj2)
        (Nat.lt_irrefl k), hc⟩

/-- Characterisation of the do-while span-length loop of `FillSpans`. -/
theorem runLenF_spec (g : Grid) (vert : Bool) :
    ∀ (fuel k : Nat), 0 < dirLen g vert →
      dirLen g vert - k % dirLen g vert ≤ fuel →
      1 ≤ runLenF g vert fuel k ∧
      (∀ s, 1 ≤ s → s < runLenF g vert fuel k →
        (k + s) % dirLen g vert ≠ 0 ∧ ¬ blockAt g vert (k + s)) ∧
      ((k + runLenF g vert fuel k) % dirLen g vert = 0 ∨
        blockAt g vert (k + runLenF g vert fuel k))
  | 0, k, hL, hfuel => by
    have : k % dirLen g vert < dirLen g vert := Nat.mod_lt k hL
    omega
  | fuel + 1, k, hL, hfuel => by
    unfold runLenF
    by_cases h1 : (k + 1) % dirLen g vert = 0
    · rw [if_pos h1]
      exact ⟨Nat.le_refl 1, fun s hs1 hs2 => by omega, Or.inl h1⟩
    · rw [if_neg h1]
      by_cases h2 : blockAt g vert (k + 1)
      · rw [if_pos h2]
        exact ⟨Nat.le_refl 1, fun s hs1 hs2 => by omega, Or.inr h2⟩
      · rw [if_neg h2]
        have hmod : (k + 1) % dirLen g vert = k % dirLen g vert + 1 :=
          mod_succ_of_ne hL h1
        have hrec := runLenF_spec g vert fuel (k + 1) hL (by omega)
        refine ⟨by omega, fun s hs1 hs2 => ?_, ?_⟩
        · rcases Nat.eq_or_lt_of_le hs1 with rfl | hs3
          · exact ⟨h1, h2⟩
          · have hs4 : s - 1 ≥ 1 := by omega
            have hs5 : s - 1 < runLenF g vert fuel (k + 1) := by omega
            have := hrec.2.1 (s - 1) hs4 hs5
            have harith : k + 1 + (s - 1) = k + s := by omega
            rw [harith] at this
            exact this
        · have := hrec.2.2
          have harith : k + 1 + runLenF g vert fuel (k + 1) =
              k + (1 + runLenF g vert fuel (k + 1)) := by omega
          rw [harith] at this
          exact this

/-- The span length the scan produces at position `k` (the fuel `fillSF` uses). -/
def runLen (g : Grid) (vert : Bool) (k : Nat) : Nat :=
  runLenF g vert (dirLen g vert + 1) k

/-- A scan position where a maximal run starts: in bounds, not a block, and at
the start of its line or just after a block. -/
def IsStart (g : Grid) (vert : Bool) (k : Nat) : Prop :=
  k < totalCells g vert ∧ ¬ blockAt g vert k ∧
    (k % dirLen g vert = 0 ∨ (0 < k ∧ blockAt g vert (k - 1)))

instance (g : Grid) (vert : Bool) (k : Nat) : Decidable (IsStart g vert k) := by
  unfold IsStart; infer_instance

/-- What holds of the outer loop's entry position in `FillSpans`. -/
def ScanInv (g : Grid) (vert : Bool) (k : Nat) : Prop :=
  k % dirLen g vert = 0 ∨ (0 < k ∧ blockAt g vert (k - 1)) ∨ blockAt g vert k

theorem runLen_spec (g : Grid) (vert : Bool) (k : Nat)
    (hL : 0 < dirLen g vert) :
    1 ≤ runLen g vert k ∧
    (∀ s, 1 ≤ s → s < runLen g vert k →
      (k + s) % dirLen g vert ≠ 0 ∧ ¬ blockAt g vert (k + s)) ∧
    ((k + runLen g vert k) % dirLen g vert = 0 ∨
      blockAt g vert (k + runLen g vert k)) := by
  have hm : k % dirLen g vert < dirLen g vert := Nat.mod_lt k hL
  exact runLenF_spec g vert (dirLen g vert + 1) k hL (by omega)

/-- All cells of a run stay on the starting line. -/
theorem run_cells_bound (g : Grid) (vert : Bool) (k : Nat)
    (hL : 0 < dirLen g vert) :
    ∀ s, s < runLen g vert k → k % dirLen g vert + s < dirLen g vert := by
  have hspec := runLen_spec g vert k hL
  intro s
  induction s with
  | zero =>
    intro _
    have := Nat.mod_lt k hL
    omega
  | succ s ih =>
    intro hs
    have hm : k % dirLen g vert + s < dirLen g vert := ih (by omega)
    by_contra hge
    have heq : k % dirLen g vert + (s + 1) = dirLen g vert := by omega
    have hdm := Nat.div_add_mod k (dirLen g vert)
    have hdecomp : k + (s + 1) =
        dirLen g vert * (k / dirLen g vert) + (k % dirLen g vert + (s + 1)) := by
      omega
    have hmod : (k + (s + 1)) % dirLen g vert = 0 := by
      rw [hdecomp, heq, ← Nat.mul_succ, Nat.mul_mod_right]
    exact (hspec.2.1 (s + 1) (by omega) hs).1 hmod

theorem run_cell_coords (g : Grid) (vert : Bool) (k : Nat)
    (hL : 0 < dirLen g vert) {s : Nat} (hs : s < runLen g vert k) :
    (k + s) % dirLen g vert = k % dirLen g vert + s ∧
    (k + s) / dirLen g vert = k / dirLen g vert := by
  have hb : k % dirLen g vert + s < dirLen g vert := run_cells_bound g vert k hL s hs
  have hdm := Nat.div_add_mod k (dirLen g vert)
  have hdecomp : k + s =
      dirLen g vert * (k / dirLen g vert) + (k % dirLen g vert + s) := by omega
  constructor
  · rw [hdecomp, Nat.mul_add_mod, Nat.mod_eq_of_lt hb]
  · rw [hdecomp, Nat.mul_add_div hL, Nat.div_eq_of_lt hb, Nat.add_zero]

theorem run_cells_lt_total (g : Grid) (vert : Bool) (k : Nat)
    (hk : k < totalCells g vert) {s : Nat} (hs : s < runLen g vert k) :
    k + s < totalCells g vert := by
  have hL := dirLen_pos hk
  have hb : k % dirLen g vert + s < dirLen g vert := run_cells_bound g vert k hL s hs
  have hdm := Nat.div_add_mod k (dirLen g vert)
  have he : k / dirLen g vert < dirCount g vert := by
    rw [Nat.div_lt_iff_lt_mul hL]
    unfold totalCells at hk
    rw [Nat.mul_comm]
    exact hk
  have h1 : k + s < dirLen g vert * (k / dirLen g vert + 1) := by
    rw [Nat.mul_succ]
    omega
  have h2 : dirLen g vert * (k / dirLen g vert + 1) ≤
      dirLen g vert * dirCount g vert := Nat.mul_le_mul_left _ he
  unfold totalCells
  omega

theorem pointAt_inBounds (g : Grid) (vert : Bool) (k : Nat)
    (hk : k < totalCells g vert) : g.IsInBounds (pointAt g vert k) := by
  have hL := dirLen_pos hk
  cases vert
  · have hk' : k < g.cols * g.rows := hk
    have hL' : 0 < g.cols := hL
    show k / g.cols < g.rows ∧ k % g.cols < g.cols
    exact ⟨by rw [Nat.div_lt_iff_lt_mul hL', Nat.mul_comm]; exact hk',
      Nat.mod_lt k hL'⟩
  · have hk' : k < g.rows * g.cols := hk
    have hL' : 0 < g.rows := hL
    show k % g.rows < g.rows ∧ k / g.rows < g.cols
    exact ⟨Nat.mod_lt k hL',
      by rw [Nat.div_lt_iff_lt_mul hL', Nat.mul_comm]; exact hk'⟩

/-- The `i`-th cell of a derived span is the scan cell `k + i`. -/
theorem GetPoint_pointAt (g : Grid) (vert : Bool) (k : Nat)
    (hL : 0 < dirLen g vert) {s : Nat} (hs : s < runLen g vert k) :
    (Span.mk (pointAt g vert k) (runLen g vert k) vert).GetPoint s =
      pointAt g vert (k + s) := by
  rcases run_cell_coords g vert k hL hs with ⟨hmod, hdiv⟩
  cases vert
  · have hmod' : (k + s) % g.cols = k % g.cols + s := hmod
    have hdiv' : (k + s) / g.cols = k / g.cols := hdiv
    show (⟨k / g.cols, k % g.cols + s⟩ : Point) = ⟨(k + s) / g.cols, (k + s) % g.cols⟩
    rw [point_eq_iff]
    exact ⟨hdiv'.symm, hmod'.symm⟩
  · have hmod' : (k + s) % g.rows = k % g.rows + s := hmod
    have hdiv' : (k + s) / g.rows = k / g.rows := hdiv
    show (⟨k % g.rows + s, k / g.rows⟩ : Point) = ⟨(k + s) % g.rows, (k + s) / g.rows⟩
    rw [point_eq_iff]
    exact ⟨hmod'.symm, hdiv'.symm⟩

/-- Soundness of the scan: every produced span sits at a run start. -/
theorem fillSF_sound (g : Grid) (vert : Bool) :
    ∀ (fuel k : Nat), totalCells g vert - k < fuel → ScanInv g vert k →
      ∀ sp ∈ fillSF g vert fuel k,
        ∃ k', k ≤ k' ∧ IsStart g vert k' ∧
          sp = Span.mk (pointAt g vert k') (runLen g vert k') vert
  | 0, k, h, _, sp, hsp => absurd h (Nat.not_lt_zero _)
  | fuel + 1, k, hfuel, hinv, sp, hsp => by
    unfold fillSF at hsp
    dsimp only at hsp
    have hskip := skipBF_spec g vert (totalCells g vert + 1) k (by omega)
    set k1 := skipBF g vert (totalCells g vert + 1) k with hk1def
    by_cases hk1 : k1 < totalCells g vert
    · rw [if_pos hk1] at hsp
      have hnb : ¬ blockAt g vert k1 := fun hb => hskip.2.2 ⟨hk1, hb⟩
      rcases List.mem_cons.1 hsp with rfl | htail
      · refine ⟨k1, hskip.1, ⟨hk1, hnb, ?_⟩, rfl⟩
        rcases Nat.eq_or_lt_of_le hskip.1 with heq | hlt
        · rcases hinv with h1 | h2 | h3
          · exact Or.inl (by rw [← heq]; exact h1)
          · exact Or.inr (by rw [← heq]; exact h2)
          · exact absurd (by rw [heq] at h3; exact h3) hnb
        · exact Or.inr ⟨by omega, (hskip.2.1 (k1 - 1) (by omega) (by omega)).2⟩
      · have hL := dirLen_pos hk1
        have hrs := runLen_spec g vert k1 hL
        have hinv' : ScanInv g vert (k1 + runLen g vert k1) := by
          rcases hrs.2.2 with hz | hb
          · exact Or.inl hz
          · exact Or.inr (Or.inr hb)
        have hfuel' : totalCells g vert - (k1 + runLen g vert k1) < fuel := by
          have h1 := hskip.1
          have h2 := hrs.1
          omega
        rcases fillSF_sound g vert fuel (k1 + runLen g vert k1) hfuel' hinv'
            sp htail with ⟨k', hk'1, hstart, heq⟩
        have h1 := hskip.1
        have h2 := hrs.1
        exact ⟨k', by omega, hstart, heq⟩
    · rw [if_neg hk1] at hsp
      exact absurd hsp (List.not_mem_nil sp)

/-- Completeness of the scan: every run start at or after the entry point
yields its span. -/
theorem fillSF_complete (g : Grid) (vert : Bool) :
    ∀ (fuel k : Nat), totalCells g vert - k < fuel →
      ∀ k', IsStart g vert k' → k ≤ k' →
        Span.mk (pointAt g vert k') (runLen g vert k') vert ∈ fillSF g vert fuel k
  | 0, k, h, _, _, _ => absurd h (Nat.not_lt_zero _)
  | fuel + 1, k, hfuel, k', hstart, hkk' => by
    unfold fillSF
    dsimp only
    have hskip := skipBF_spec g vert (totalCells g vert + 1) k (by omega)
    set k1 := skipBF g vert (totalCells g vert + 1) k with hk1def
    have hk1le : k1 ≤ k' := by
      by_contra hgt
      exact hstart.2.1 (hskip.2.1 k' hkk' (by omega)).2
    have hk1lt : k1 < totalCells g vert := Nat.lt_of_le_of_lt hk1le hstart.1
    rw [if_pos hk1lt]
    rcases Nat.eq_or_lt_of_le hk1le with heq | hlt
    · rw [heq]
      exact List.mem_cons_self _ _
    · have hnb1 : ¬ blockAt g vert k1 := fun hb => hskip.2.2 ⟨hk1lt, hb⟩
      have hL := dirLen_pos hk1lt
      have hrs := runLen_spec g vert k1 hL
      have hge : k1 + runLen g vert k1 ≤ k' := by
        by_contra hlt2
        have hs1 : 1 ≤ k' - k1 := by omega
        have hs2 : k' - k1 < runLen g vert k1 := by omega
        have hmid := hrs.2.1 (k' - k1) hs1 hs2
        have hkeq : k1 + (k' - k1) = k' := by omega
        rw [hkeq] at hmid
        rcases hstart.2.2 with hz | ⟨hpos, hb⟩
        · exact hmid.1 hz
        · rcases Nat.eq_or_lt_of_le hs1 with h1 | h1
          · have hk1e : k' - 1 = k1 := by omega
            rw [hk1e] at hb
            exact hnb1 hb
          · have hmid2 := hrs.2.1 (k' - k1 - 1) (by omega) (by omega)
            have hke2 : k1 + (k' - k1 - 1) = k' - 1 := by omega
            rw [hke2] at hmid2
            exact hmid2.2 hb
      refine List.mem_cons_of_mem _ ?_
      have h1 := hskip.1
      have h2 := hrs.1
      exact fillSF_complete g vert fuel (k1 + runLen g vert k1) (by omega) k' hstart hge

/-- The scan emits spans in strictly increasing start order. -/
theorem fillSF_sorted (g : Grid) (vert : Bool) :
    ∀ (fuel k : Nat), totalCells g vert - k < fuel → ScanInv g vert k →
      List.Pairwise
        (fun a b : Span => linIdx g vert a.point < linIdx g vert b.point)
        (fillSF g vert fuel k)
  | 0, k, h, _ => absurd h (Nat.not_lt_zero _)
  | fuel + 1, k, hfuel, hinv => by
    unfold fillSF
    dsimp only
    have hskip := skipBF_spec g vert (totalCells g vert + 1) k (by omega)
    set k1 := skipBF g vert (totalCells g vert + 1) k with hk1def
    by_cases hk1 : k1 < totalCells g vert
    · rw [if_pos hk1]
      have hL := dirLen_pos hk1
      have hrs := runLen_spec g vert k1 hL
      have hinv' : ScanInv g vert (k1 + runLen g vert k1) := by
        rcases hrs.2.2 with hz | hb
        · exact Or.inl hz
        · exact Or.inr (Or.inr hb)
      have hfuel' : totalCells g vert - (k1 + runLen g vert k1) < fuel := by
        have h1 := hskip.1
        have h2 := hrs.1
        omega
      rw [List.pairwise_cons]
      constructor
      · intro b hb
        rcases fillSF_sound g vert fuel (k1 + runLen g vert k1) hfuel' hinv'
            b hb with ⟨k', hk'1, hstart, rfl⟩
        simp only [linIdx_pointAt]
        have h2 := hrs.1
        omega
      · exact fillSF_sorted g vert fuel (k1 + runLen g vert k1) hfuel' hinv'
    · rw [if_neg hk1]
      exact List.Pairwise.nil

-- ===== Span derivation depends only on dimensions and block positions =====

theorem dirLen_congr {g1 g2 : Grid} (hr : g1.rows = g2.rows)
    (hc : g1.cols = g2.cols) (vert : Bool) : dirLen g1 vert = dirLen g2 vert := by
  unfold dirLen
  rw [hr, hc]

theorem totalCells_congr {g1 g2 : Grid} (hr : g1.rows = g2.rows)
    (hc : g1.cols = g2.cols) (vert : Bool) :
    totalCells g1 vert = totalCells g2 vert := by
  unfold totalCells dirLen dirCount
  rw [hr, hc]

theorem pointAt_congr {g1 g2 : Grid} (hr : g1.rows = g2.rows)
    (hc : g1.cols = g2.cols) (vert : Bool) (k : Nat) :
    pointAt g1 vert k = pointAt g2 vert k := by
  unfold pointAt
  rw [hr, hc]

theorem blockAt_congr {g1 g2 : Grid} (hr : g1.rows = g2.rows)
    (hc : g1.cols = g2.cols) (hb : ∀ p, g1.IsBlock p ↔ g2.IsBlock p)
    (vert : Bool) (k : Nat) : blockAt g1 vert k ↔ blockAt g2 vert k := by
  unfold blockAt
  rw [pointAt_congr hr hc vert k]
  exact hb _

theorem skipBF_congr {g1 g2 : Grid} (hr : g1.rows = g2.rows)
    (hc : g1.cols = g2.cols) (hb : ∀ p, g1.IsBlock p ↔ g2.IsBlock p)
    (vert : Bool) :
    ∀ fuel k, skipBF g1 vert fuel k = skipBF g2 vert fuel k
  | 0, _ => rfl
  | fuel + 1, k => by
    unfold skipBF
    by_cases h1 : k < totalCells g1 vert ∧ blockAt g1 vert k
    · have h2 : k < totalCells g2 vert ∧ blockAt g2 vert k :=
        ⟨totalCells_congr hr hc vert ▸ h1.1, (blockAt_congr hr hc hb vert k).1 h1.2⟩
      rw [if_pos h1, if_pos h2]
      exact skipBF_congr hr hc hb vert fuel (k + 1)
    · have h2 : ¬ (k < totalCells g2 vert ∧ blockAt g2 vert k) := fun hx =>
        h1 ⟨(totalCells_congr hr hc vert).symm ▸ hx.1,
          (blockAt_congr hr hc hb vert k).2 hx.2⟩
      rw [if_neg h1, if_neg h2]

theorem runLenF_congr {g1 g2 : Grid} (hr : g1.rows = g2.rows)
    (hc : g1.cols = g2.cols) (hb : ∀ p, g1.IsBlock p ↔ g2.IsBlock p)
    (vert : Bool) :
    ∀ fuel k, runLenF g1 vert fuel k = runLenF g2 vert fuel k
  | 0, _ => rfl
  | fuel + 1, k => by
    unfold runLenF
    rw [← dirLen_congr hr hc vert]
    by_cases h1 : (k + 1) % dirLen g1 vert = 0
    · rw [if_pos h1, if_pos h1]
    · rw [if_neg h1, if_neg h1]
      by_cases h2 : blockAt g1 vert (k + 1)
      · rw [if_pos h2, if_pos ((blockAt_congr hr hc hb vert (k + 1)).1 h2)]
      · rw [if_neg h2, if_neg fun hx => h2 ((blockAt_congr hr hc hb vert (k + 1)).2 hx)]
        rw [runLenF_congr hr hc hb vert fuel (k + 1)]

theorem fillSF_congr {g1 g2 : Grid} (hr : g1.rows = g2.rows)
    (hc : g1.cols = g2.cols) (hb : ∀ p, g1.IsBlock p ↔ g2.IsBlock p)
    (vert : Bool) :
    ∀ fuel k, fillSF g1 vert fuel k = fillSF g2 vert fuel k
  | 0, _ => rfl
  | fuel + 1, k => by
    unfold fillSF
    dsimp only
    rw [← totalCells_congr hr hc vert, ← dirLen_congr hr hc vert,
      ← skipBF_congr hr hc hb vert (totalCells g1 vert + 1) k]
    by_cases h1 : skipBF g1 vert (totalCells g1 vert + 1) k < totalCells g1 vert
    · rw [if_pos h1, if_pos h1]
      rw [← runLenF_congr hr hc hb vert (dirLen g1 vert + 1) _,
        ← pointAt_congr hr hc vert _,
        fillSF_congr hr hc hb vert fuel _]
    · rw [if_neg h1, if_neg h1]

theorem FillSpansList_congr {g1 g2 : Grid} (hr : g1.rows = g2.rows)
    (hc : g1.cols = g2.cols) (hb : ∀ p, g1.IsBlock p ↔ g2.IsBlock p) :
    g1.FillSpansList = g2.FillSpansList := by
  unfold Grid.FillSpansList FillSpansDir
  rw [fillSF_congr hr hc hb false _ 0, fillSF_congr hr hc hb true _ 0,
    totalCells_congr hr hc false, totalCells_congr hr hc true]

/-- Characterisation of one direction's span list: exactly the maximal runs,
one per run start. -/
theorem FillSpansDir_mem (g : Grid) (vert : Bool) (sp : Span) :
    sp ∈ FillSpansDir g vert ↔
      ∃ k, IsStart g vert k ∧
        sp = Span.mk (pointAt g vert k) (runLen g vert k) vert := by
  unfold FillSpansDir
  constructor
  · intro h
    rcases fillSF_sound g vert (totalCells g vert + 1) 0 (by omega)
        (Or.inl (Nat.zero_mod _)) sp h with ⟨k, _, hstart, heq⟩
    exact ⟨k, hstart, heq⟩
  · rintro ⟨k, hstart, rfl⟩
    exact fillSF_complete g vert (totalCells g vert + 1) 0 (by omega) k hstart
      (Nat.zero_le k)

/-- Every cell of a derived span is in bounds and not a block. -/
theorem span_cells_ok (g : Grid) (vert : Bool) {k : Nat}
    (hstart : IsStart g vert k) :
    ∀ i, i < runLen g vert k →
      g.IsInBounds ((Span.mk (pointAt g vert k) (runLen g vert k) vert).GetPoint i) ∧
      ¬ g.IsBlock ((Span.mk (pointAt g vert k) (runLen g vert k) vert).GetPoint i) := by
  intro i hi
  have hL := dirLen_pos hstart.1
  rw [GetPoint_pointAt g vert k hL hi]
  refine ⟨pointAt_inBounds g vert _ (run_cells_lt_total g vert k hstart.1 hi), ?_⟩
  rcases Nat.eq_zero_or_pos i with rfl | hpos
  · rw [Nat.add_zero]
    exact hstart.2.1
  · exact ((runLen_spec g vert k hL).2.1 i hpos hi).2

theorem pointAt_decomp_h (g : Grid) (e m : Nat) (hm : m < g.cols) :
    pointAt g false (g.cols * e + m) = ⟨e, m⟩ := by
  have hC : 0 < g.cols := by omega
  show (⟨(g.cols * e + m) / g.cols, (g.cols * e + m) % g.cols⟩ : Point) = ⟨e, m⟩
  rw [point_eq_iff]
  constructor
  · rw [Nat.mul_add_div hC, Nat.div_eq_of_lt hm, Nat.add_zero]
  · rw [Nat.mul_add_mod, Nat.mod_eq_of_lt hm]

theorem pointAt_decomp_v (g : Grid) (e m : Nat) (hm : m < g.rows) :
    pointAt g true (g.rows * e + m) = ⟨m, e⟩ := by
  have hR : 0 < g.rows := by omega
  show (⟨(g.rows * e + m) % g.rows, (g.rows * e + m) / g.rows⟩ : Point) = ⟨m, e⟩
  rw [point_eq_iff]
  constructor
  · rw [Nat.mul_add_mod, Nat.mod_eq_of_lt hm]
  · rw [Nat.mul_add_div hR, Nat.div_eq_of_lt hm, Nat.add_zero]

/-- The cell before a derived span's origin, in the span's direction, is out
of bounds (the origin is at the line start) or a block. -/
theorem span_before_ok (g : Grid) (vert : Bool) {k : Nat}
    (hstart : IsStart g vert k) :
    k % dirLen g vert = 0 ∨
      (0 < k % dirLen g vert ∧ blockAt g vert (k - 1) ∧
        pointAt g vert (k - 1) =
          (if vert then (⟨k % g.rows - 1, k / g.rows⟩ : Point)
            else ⟨k / g.cols, k % g.cols - 1⟩)) := by
  have hL := dirLen_pos hstart.1
  by_cases hm : k % dirLen g vert = 0
  · exact Or.inl hm
  · have hmpos : 0 < k % dirLen g vert := Nat.pos_of_ne_zero hm
    rcases hstart.2.2 with hz | ⟨hkpos, hb⟩
    · exact absurd hz hm
    · refine Or.inr ⟨hmpos, hb, ?_⟩
      have hdm := Nat.div_add_mod k (dirLen g vert)
      have hdecomp : k - 1 =
          dirLen g vert * (k / dirLen g vert) + (k % dirLen g vert - 1) := by omega
      have hmlt : k % dirLen g vert - 1 < dirLen g vert := by
        have := Nat.mod_lt k hL
        omega
      cases vert
      · have hC : k % g.cols - 1 < g.cols := hmlt
        have hd2 : k - 1 = g.cols * (k / g.cols) + (k % g.cols - 1) := hdecomp
        rw [hd2, pointAt_decomp_h g _ _ hC]
        rfl
      · have hR : k % g.rows - 1 < g.rows := hmlt
        have hd2 : k - 1 = g.rows * (k / g.rows) + (k % g.rows - 1) := hdecomp
        rw [hd2, pointAt_decomp_v g _ _ hR]
        rfl

/-- The cell after a derived span's end is out of bounds (the span reaches the
line end) or a block. -/
theorem span_after_ok (g : Grid) (vert : Bool) {k : Nat}
    (hstart : IsStart g vert k) :
    k % dirLen g vert + runLen g vert k = dirLen g vert ∨
      (k % dirLen g vert + runLen g vert k < dirLen g vert ∧
        blockAt g vert (k + runLen g vert k) ∧
        pointAt g vert (k + runLen g vert k) =
          (if vert then (⟨k % g.rows + runLen g vert k, k / g.rows⟩ : Point)
            else ⟨k / g.cols, k % g.cols + runLen g vert k⟩)) := by
  have hL := dirLen_pos hstart.1
  have hrs := runLen_spec g vert k hL
  have hle : k % dirLen g vert + runLen g vert k ≤ dirLen g vert := by
    have := run_cells_bound g vert k hL (runLen g vert k - 1) (by omega)
    omega
  by_cases hml : k % dirLen g vert + runLen g vert k = dirLen g vert
  · exact Or.inl hml
  · have hlt : k % dirLen g vert + runLen g vert k < dirLen g vert := by omega
    have hdm := Nat.div_add_mod k (dirLen g vert)
    have hdecomp : k + runLen g vert k =
        dirLen g vert * (k / dirLen g vert) +
          (k % dirLen g vert + runLen g vert k) := by omega
    have hblock : blockAt g vert (k + runLen g vert k) := by
      rcases hrs.2.2 with hz | hb
      · exfalso
        rw [hdecomp, Nat.mul_add_mod,
          Nat.mod_eq_of_lt hlt] at hz
        omega
      · exact hb
    refine Or.inr ⟨hlt, hblock, ?_⟩
    cases vert
    · have hC : k % g.cols + runLen g false k < g.cols := hlt
      have hd2 : k + runLen g false k =
          g.cols * (k / g.cols) + (k % g.cols + runLen g false k) := hdecomp
      rw [hd2, pointAt_decomp_h g _ _ hC]
      rfl
    · have hR : k % g.rows + runLen g true k < g.rows := hlt
      have hd2 : k + runLen g true k =
          g.rows * (k / g.rows) + (k % g.rows + runLen g true k) := hdecomp
      rw [hd2, pointAt_decomp_v g _ _ hR]
      rfl

/-- C7: every span the derivation produces has length ≥ 1, covers only
in-bounds non-block cells, and is maximal (the cell before its origin and the
cell after its end, in the span's direction, are out of bounds or blocks); the
derived list depends only on the dimensions and the block positions; it is the
horizontal spans in row-major start order followed by the vertical spans in
column-major start order; and it is complete: every maximal-run start yields a
span of its direction. -/
theorem C7_span_derivation (g : Grid) :
    (∀ sp ∈ g.FillSpansList, 1 ≤ sp.nLen ∧
      ∀ i, i < sp.nLen →
        g.IsInBounds (sp.GetPoint i) ∧ ¬ g.IsBlock (sp.GetPoint i)) ∧
    (∀ sp ∈ g.FillSpansList,
      (sp.bVert = false →
        (sp.point.nCol = 0 ∨ g.IsBlock ⟨sp.point.nRow, sp.point.nCol - 1⟩) ∧
        (sp.point.nCol + sp.nLen = g.cols ∨
          g.IsBlock ⟨sp.point.nRow, sp.point.nCol + sp.nLen⟩)) ∧
      (sp.bVert = true →
        (sp.point.nRow = 0 ∨ g.IsBlock ⟨sp.point.nRow - 1, sp.point.nCol⟩) ∧
        (sp.point.nRow + sp.nLen = g.rows ∨
          g.IsBlock ⟨sp.point.nRow + sp.nLen, sp.point.nCol⟩))) ∧
    (∀ g2 : Grid, g.rows = g2.rows → g.cols = g2.cols →
      (∀ p, g.IsBlock p ↔ g2.IsBlock p) → g.FillSpansList = g2.FillSpansList) ∧
    (g.FillSpansList = FillSpansDir g false ++ FillSpansDir g true ∧
      (∀ sp ∈ FillSpansDir g false, sp.bVert = false) ∧
      (∀ sp ∈ FillSpansDir g true, sp.bVert = true) ∧
      List.Pairwise (fun a b : Span =>
        a.point.nRow * g.cols + a.point.nCol <
          b.point.nRow * g.cols + b.point.nCol) (FillSpansDir g false) ∧
      List.Pairwise (fun a b : Span =>
        a.point.nCol * g.rows + a.point.nRow <
          b.point.nCol * g.rows + b.point.nRow) (FillSpansDir g true)) ∧
    (∀ r c : Nat, r < g.rows → c < g.cols → ¬ g.IsBlock ⟨r, c⟩ →
      (c = 0 ∨ g.IsBlock ⟨r, c - 1⟩) →
      ∃ len, Span.mk ⟨r, c⟩ len false ∈ FillSpansDir g false) ∧
    (∀ r c : Nat, r < g.rows → c < g.cols → ¬ g.IsBlock ⟨r, c⟩ →
      (r = 0 ∨ g.IsBlock ⟨r - 1, c⟩) →
      ∃ len, Span.mk ⟨r, c⟩ len true ∈ FillSpansDir g true) := by
  have hboth : ∀ sp ∈ g.FillSpansList, ∃ vert k, IsStart g vert k ∧
      sp = Span.mk (pointAt g vert k) (runLen g vert k) vert := by
    intro sp hsp
    rcases List.mem_append.1 hsp with h | h
    · rcases (FillSpansDir_mem g false sp).1 h with ⟨k, hs, he⟩
      exact ⟨false, k, hs, he⟩
    · rcases (FillSpansDir_mem g true sp).1 h with ⟨k, hs, he⟩
      exact ⟨true, k, hs, he⟩
  refine ⟨?_, ?_, ?_, ?_, ?_, ?_⟩
  · -- lengths and cells
    intro sp hsp
    rcases hboth sp hsp with ⟨vert, k, hstart, rfl⟩
    exact ⟨(runLen_spec g vert k (dirLen_pos hstart.1)).1,
      span_cells_ok g vert hstart⟩
  · -- maximality
    intro sp hsp
    rcases hboth sp hsp with ⟨vert, k, hstart, rfl⟩
    constructor
    · intro hv
      subst hv
      constructor
      · rcases span_before_ok g false hstart with hz | ⟨_, hb, hpt⟩
        · exact Or.inl hz
        · have hpt' : pointAt g false (k - 1) =
              (⟨k / g.cols, k % g.cols - 1⟩ : Point) := hpt
          have hb' : g.IsBlock (pointAt g false (k - 1)) := hb
          rw [hpt'] at hb'
          exact Or.inr hb'
      · rcases span_after_ok g false hstart with hz | ⟨_, hb, hpt⟩
        · exact Or.inl hz
        · have hpt' : pointAt g false (k + runLen g false k) =
              (⟨k / g.cols, k % g.cols + runLen g false k⟩ : Point) := hpt
          have hb' : g.IsBlock (pointAt g false (k + runLen g false k)) := hb
          rw [hpt'] at hb'
          exact Or.inr hb'
    · intro hv
      subst hv
      constructor
      · rcases span_before_ok g true hstart with hz | ⟨_, hb, hpt⟩
        · exact Or.inl hz
        · have hpt' : pointAt g true (k - 1) =
              (⟨k % g.rows - 1, k / g.rows⟩ : Point) := hpt
          have hb' : g.IsBlock (pointAt g true (k - 1)) := hb
          rw [hpt'] at hb'
          exact Or.inr hb'
      · rcases span_after_ok g true hstart with hz | ⟨_, hb, hpt⟩
        · exact Or.inl hz
        · have hpt' : pointAt g true (k + runLen g true k) =
              (⟨k % g.rows + runLen g true k, k / g.rows⟩ : Point) := hpt
          have hb' : g.IsBlock (pointAt g true (k + runLen g true k)) := hb
          rw [hpt'] at hb'
          exact Or.inr hb'
  · -- depends only on dimensions and blocks
    intro g2 hr hc hb
    exact FillSpansList_congr hr hc hb
  · -- shape and ordering
    refine ⟨rfl, ?_, ?_, ?_, ?_⟩
    · intro sp hsp
      rcases (FillSpansDir_mem g false sp).1 hsp with ⟨k, _, rfl⟩
      rfl
    · intro sp hsp
      rcases (FillSpansDir_mem g true sp).1 hsp with ⟨k, _, rfl⟩
      rfl
    · exact fillSF_sorted g false (totalCells g false + 1) 0 (by omega)
        (Or.inl (Nat.zero_mod _))
    · exact fillSF_sorted g true (totalCells g true + 1) 0 (by omega)
        (Or.inl (Nat.zero_mod _))
  · -- completeness, horizontal
    intro r c hr hc hnb hbefore
    have hC : 0 < g.cols := by omega
    have hklt : g.cols * r + c < totalCells g false := by
      have h1 : g.cols * (r + 1) ≤ g.cols * g.rows :=
        Nat.mul_le_mul_left _ (by omega)
      have h2 : g.cols * (r + 1) = g.cols * r + g.cols := Nat.mul_succ _ _
      show g.cols * r + c < g.cols * g.rows
      omega
    have hpt : pointAt g false (g.cols * r + c) = ⟨r, c⟩ := pointAt_decomp_h g r c hc
    have hstart : IsStart g false (g.cols * r + c) := by
      refine ⟨hklt, ?_, ?_⟩
      · show ¬ g.IsBlock (pointAt g false (g.cols * r + c))
        rw [hpt]
        exact hnb
      · rcases hbefore with rfl | hbl
        · left
          show (g.cols * r + 0) % g.cols = 0
          rw [Nat.mul_add_mod]
          rfl
        · by_cases hc0 : c = 0
          · left
            subst hc0
            show (g.cols * r + 0) % g.cols = 0
            rw [Nat.mul_add_mod]
            rfl
          · right
            refine ⟨by omega, ?_⟩
            show g.IsBlock (pointAt g false (g.cols * r + c - 1))
            have hd : g.cols * r + c - 1 = g.cols * r + (c - 1) := by omega
            rw [hd, pointAt_decomp_h g r (c - 1) (by omega)]
            exact hbl
    refine ⟨runLen g false (g.cols * r + c), ?_⟩
    have := (FillSpansDir_mem g false _).2 ⟨g.cols * r + c, hstart, rfl⟩
    rw [hpt] at this
    exact this
  · -- completeness, vertical
    intro r c hr hc hnb hbefore
    have hR : 0 < g.rows := by omega
    have hklt : g.rows * c + r < totalCells g true := by
      have h1 : g.rows * (c + 1) ≤ g.rows * g.cols :=
        Nat.mul_le_mul_left _ (by omega)
      have h2 : g.rows * (c + 1) = g.rows * c + g.rows := Nat.mul_succ _ _
      show g.rows * c + r < g.rows * g.cols
      omega
    have hpt : pointAt g true (g.rows * c + r) = ⟨r, c⟩ := pointAt_decomp_v g c r hr
    have hstart : IsStart g true (g.rows * c + r) := by
      refine ⟨hklt, ?_, ?_⟩
      · show ¬ g.IsBlock (pointAt g true (g.rows * c + r))
        rw [hpt]
        exact hnb
      · rcases hbefore with rfl | hbl
        · left
          show (g.rows * c + 0) % g.rows = 0
          rw [Nat.mul_add_mod]
          rfl
        · by_cases hr0 : r = 0
          · left
            subst hr0
            show (g.rows * c + 0) % g.rows = 0
            rw [Nat.mul_add_mod]
            rfl
          · right
            refine ⟨by omega, ?_⟩
            show g.IsBlock (pointAt g true (g.rows * c + r - 1))
            have hd : g.rows * c + r - 1 = g.rows * c + (r - 1) := by omega
            rw [hd, pointAt_decomp_v g c (r - 1) (by omega)]
            exact hbl
    refine ⟨runLen g true (g.rows * c + r), ?_⟩
    have := (FillSpansDir_mem g true _).2 ⟨g.rows * c + r, hstart, rfl⟩
    rw [hpt] at this
    exact this

/-- A 3×3 demo grid with a centre block, all blank. -/
def gridCross : Grid :=
  (Grid.mk [] (loadLines [['.', '.', '.'], ['.', '#', '.'], ['.', '.', '.']]) []).FillSpans

/-- The same shape with a letter at (0,0): same blocks, different contents. -/
def gridCrossA : Grid :=
  (Grid.mk [] (loadLines [['A', '.', '.'], ['.', '#', '.'], ['.', '.', '.']]) []).FillSpans

theorem gridCross_same_blocks :
    ∀ p, gridCross.IsBlock p ↔ gridCrossA.IsBlock p := by
  intro p
  rcases p with ⟨r, c⟩
  have hl1 : gridCross.vecLines =
      [['.', '.', '.'], ['.', '#', '.'], ['.', '.', '.']] := by decide
  have hl2 : gridCrossA.vecLines =
      [['A', '.', '.'], ['.', '#', '.'], ['.', '.', '.']] := by decide
  unfold Grid.IsBlock Grid.GetChar Grid.getCell
  rw [hl1, hl2]
  rcases r with _ | r
  · rcases c with _ | c
    · simp only [List.getElem?_cons_zero, Option.some_bind]
      exact iff_of_false (by decide) (by decide)
    · simp only [List.getElem?_cons_zero, Option.some_bind, List.getElem?_cons_succ]
  · simp only [List.getElem?_cons_succ]

/-- The derived span list of the 3×3 centre-block grid, written out (evaluated
once here; the witness rewrites with this equation for its memberships). -/
theorem gridCross_spans_eq :
    gridCross.FillSpansList =
      [Span.mk (Point.mk 0 0) 3 false, Span.mk (Point.mk 1 0) 1 false,
       Span.mk (Point.mk 1 2) 1 false, Span.mk (Point.mk 2 0) 3 false,
       Span.mk (Point.mk 0 0) 3 true, Span.mk (Point.mk 0 1) 1 true,
       Span.mk (Point.mk 2 1) 1 true, Span.mk (Point.mk 0 2) 3 true] := by
  decide

/-- C7 witness: concrete instances on the 3×3 centre-block grid — its first
span has length 3 with a valid middle cell and is right-maximal; letters do
not change the derived list; the run start at (1,2) yields a span. -/
theorem C7_span_derivation_witness :
    1 ≤ (Span.mk (Point.mk 0 0) 3 false).nLen ∧
    (gridCross.IsInBounds ((Span.mk (Point.mk 0 0) 3 false).GetPoint 1) ∧
      ¬ gridCross.IsBlock ((Span.mk (Point.mk 0 0) 3 false).GetPoint 1)) ∧
    ((Span.mk (Point.mk 0 0) 3 false).point.nCol +
        (Span.mk (Point.mk 0 0) 3 false).nLen = gridCross.cols ∨
      gridCross.IsBlock ⟨0, 3⟩) ∧
    gridCross.FillSpansList = gridCrossA.FillSpansList ∧
    (∃ len, Span.mk ⟨1, 2⟩ len false ∈ FillSpansDir gridCross false) := by
  have h := C7_span_derivation gridCross
  have hm : Span.mk (Point.mk 0 0) 3 false ∈ gridCross.FillSpansList := by
    rw [gridCross_spans_eq]
    decide
  exact ⟨(h.1 _ hm).1, (h.1 _ hm).2 1 (by decide),
    ((h.2.1 _ hm).1 rfl).2,
    h.2.2.1 gridCrossA (by decide) (by decide) gridCross_same_blocks,
    h.2.2.2.2.1 1 2 (by decide) (by decide) (by decide) (Or.inr (by decide))⟩

end Cwe
